import Mathlib

/-!
# Verification of the Duplicate Detection Engine (`agents/utils/duplicate_detector.py`)

A shallow embedding of the duplicate-detection module of the jobseek
repository, together with theorems settling the frozen claims about it.

Modelling conventions:
* Python `str` is modelled as `List Char` (`Str`).  All inputs relevant to the
  claims are ASCII; `str.lower`, `str.strip`, `\w`, `\s`, `\d` are modelled at
  ASCII precision.
* Python floats are modelled as exact rationals (`ℚ`).  All arithmetic the
  module performs (sums and products of small weights, `2*m/n` ratios) is
  modelled symbolically.
* `hashlib.md5(x).hexdigest()` is modelled by its preimage `x`: the module uses
  digests only for equality tests, and the specification itself allows any
  reproducible collision-free hash, so equality of digests is modelled as
  equality of the hashed strings.
* Python `dict` (insertion-ordered) is modelled as an association list in
  insertion order; Python `set` of hashes as a `List` (only membership and size
  are ever used, and elements are inserted at most once along reachable
  states).
-/

namespace JobSeek

/-- Python strings, modelled as lists of characters. -/
abbrev Str := List Char

/-- Shorthand used for string literals in concrete test vectors. -/
def toL (s : String) : Str := s.toList

/-! ## Python string primitives (ASCII model) -/

/-- `str.lower()` on one character (ASCII model of Python's `str.lower`). -/
def pyLowerChar (c : Char) : Char :=
  if 'A' ≤ c ∧ c ≤ 'Z' then Char.ofNat (c.toNat + 32) else c

/-- `str.lower()`. -/
def pyLower (s : Str) : Str := s.map pyLowerChar

/-- Python whitespace (`\s`, `str.strip()`), ASCII model. -/
def pyIsSpace (c : Char) : Bool :=
  c == ' ' || c == '\t' || c == '\n' || c == '\r' || c == '\x0b' || c == '\x0c'

/-- `str.strip()`: remove leading and trailing whitespace. -/
def pyStrip (s : Str) : Str :=
  ((s.dropWhile pyIsSpace).reverse.dropWhile pyIsSpace).reverse

/-- A word character in the sense of the regex `\w` (ASCII model). -/
def isWordChar (c : Char) : Bool := c.isAlpha || c.isDigit || c == '_'

/-- `\b` holds before a word character when the previous character (if any) is
not a word character. -/
def boundaryBefore : Option Char → Bool
  | none => true
  | some p => !isWordChar p

/-- `\b` holds after a word character when the next character (if any) is not a
word character. -/
def boundaryAfter : Option Char → Bool
  | none => true
  | some n => !isWordChar n

/-- Does `l` start with `w`? -/
def startsWith : Str → Str → Bool
  | [], _ => true
  | _ :: _, [] => false
  | w :: ws, c :: cs => w == c && startsWith ws cs

/-!
## `re.sub` scanners

Each `re.sub(pattern, repl, s)` call in the source is modelled by a dedicated
left-to-right scanner.  A matcher receives the previous character of the
*original* string (for `\b` lookbehind, exactly as `re` continues scanning the
original text after a replacement), the current character and the rest of the
string.  On success it returns `(replacement, extra, lastc)` where `extra` is
the number of extra characters consumed beyond the current one and `lastc` is
the last original character consumed (the lookbehind context for what follows).
All patterns in the source match at least one character, so every match
consumes the current character.
-/

/-- A regex matcher at one position: previous char, current char, rest. -/
abbrev Matcher := Option Char → Char → Str → Option (Str × Nat × Char)

/-- Left-to-right scan-and-substitute, as `re.sub` does.  Structural recursion
on `fuel`, which bounds the number of scan steps; every step consumes at least
the current character, so `s.length` steps always suffice (see `subScan`). -/
def subScanF (m : Matcher) : Nat → Option Char → Str → Str
  | 0, _, s => s
  | _ + 1, _, [] => []
  | fuel + 1, prev, c :: cs =>
    match m prev c cs with
    | some (repl, extra, lastc) => repl ++ subScanF m fuel (some lastc) (cs.drop extra)
    | none => c :: subScanF m fuel (some c) cs

/-- `re.sub`-style scan of the whole string. -/
def subScan (m : Matcher) (prev : Option Char) (s : Str) : Str :=
  subScanF m s.length prev s

/-- Try the alternatives of `\b(w₁|w₂|…)\b` in order (as the regex engine
does), with empty-or-given replacement; used by several substitutions. -/
def matchAlt (words : List Str) (repl : Str) : Matcher := fun prev c cs =>
  if boundaryBefore prev then
    words.findSome? fun w =>
      if startsWith w (c :: cs) ∧ boundaryAfter ((c :: cs).drop w.length).head? then
        some (repl, w.length - 1, w.getLastD c)
      else none
  else none

/-- `re.sub(r'\b(sr|senior|jr|junior)\b\.?', '', s)`: seniority tokens, with an
optional trailing period (the `\b` sits between the token and the dot). -/
def matchSeniority : Matcher := fun prev c cs =>
  if boundaryBefore prev then
    [toL "sr", toL "senior", toL "jr", toL "junior"].findSome? fun w =>
      if startsWith w (c :: cs) ∧ boundaryAfter ((c :: cs).drop w.length).head? then
        match ((c :: cs).drop w.length).head? with
        | some '.' => some ([], w.length, '.')
        | _ => some ([], w.length - 1, w.getLastD c)
      else none
  else none

/-- `re.sub(r'\b(i|ii|iii|iv|v|1|2|3|4|5)\b', '', s)`. -/
def matchLevelToken : Matcher :=
  matchAlt [toL "i", toL "ii", toL "iii", toL "iv", toL "v",
            toL "1", toL "2", toL "3", toL "4", toL "5"] []

/-- `re.sub(r'\b(level|lvl)\s*\d+\b', '', s)`. -/
def matchLevelNum : Matcher := fun prev c cs =>
  if boundaryBefore prev then
    [toL "level", toL "lvl"].findSome? fun w =>
      if startsWith w (c :: cs) then
        let rest := (c :: cs).drop w.length
        let sp := rest.takeWhile pyIsSpace
        let rest2 := rest.drop sp.length
        let ds := rest2.takeWhile Char.isDigit
        if ds ≠ [] ∧ boundaryAfter (rest2.drop ds.length).head? then
          some ([], w.length + sp.length + ds.length - 1, ds.getLastD c)
        else none
      else none
  else none

/-- `re.sub(r'\s+', ' ', s)`: collapse whitespace runs to a single space. -/
def matchWs : Matcher := fun _ c cs =>
  if pyIsSpace c then
    let run := cs.takeWhile pyIsSpace
    some ([' '], run.length, run.getLastD c)
  else none

/-- `re.sub(r'<[^>]+>', '', s)`: strip HTML-tag-like substrings. -/
def matchHtmlTag : Matcher := fun _ c cs =>
  if c = '<' then
    let body := cs.takeWhile (fun x => x != '>')
    if body ≠ [] ∧ (cs.drop body.length).head? = some '>' then
      some ([], body.length + 1, '>')
    else none
  else none

/-- `re.sub(r'\s+', ' ', s).strip()` — the final cleanup of every normalizer. -/
def collapseWsStrip (s : Str) : Str := pyStrip (subScan matchWs none s)

/-! ## Text normalizers (`_normalize_*` methods of `DuplicateDetector`) -/

/-- `_normalize_title`. -/
def normalizeTitle (title : Str) : Str :=
  if title = [] then []
  else
    let n := pyStrip (pyLower title)
    let n := subScan matchSeniority none n
    let n := subScan matchLevelToken none n
    let n := subScan matchLevelNum none n
    collapseWsStrip n

/-- One pass of `re.sub(rf'\b{suffix}\.?$', '', s)`: the pattern is anchored at
the very end of the string (`$`; inputs here never end in a newline since they
have been `strip()`ed), so at most one occurrence is removed. -/
def stripLegalSuffix (suf : Str) (s : Str) : Str :=
  let dotted := suf ++ ['.']
  if startsWith dotted.reverse s.reverse then
    let pre := s.take (s.length - dotted.length)
    if boundaryBefore pre.getLast? then pre else s
  else if startsWith suf.reverse s.reverse then
    let pre := s.take (s.length - suf.length)
    if boundaryBefore pre.getLast? then pre else s
  else s

/-- The legal-entity suffixes, in the order the source iterates them. -/
def legalSuffixes : List Str :=
  [toL "inc", toL "corp", toL "corporation", toL "llc",
   toL "ltd", toL "limited", toL "co", toL "company"]

/-- `_normalize_company`. -/
def normalizeCompany (company : Str) : Str :=
  if company = [] then []
  else
    let n := pyStrip (pyLower company)
    let n := legalSuffixes.foldl (fun acc suf => stripLegalSuffix suf acc) n
    collapseWsStrip n

/-- `_normalize_location`. -/
def normalizeLocation (location : Str) : Str :=
  if location = [] then []
  else
    let n := pyStrip (pyLower location)
    let n := subScan (matchAlt [toL "remote", toL "work from home", toL "wfh"] (toL "remote")) none n
    let n := subScan (matchAlt [toL "usa", toL "united states", toL "us"] (toL "us")) none n
    collapseWsStrip n

/-- The stop-word set of `_normalize_description`. -/
def stopWords : List Str :=
  [toL "the", toL "a", toL "an", toL "and", toL "or", toL "but", toL "in",
   toL "on", toL "at", toL "to", toL "for", toL "of", toL "with", toL "by",
   toL "is", toL "are", toL "was", toL "were", toL "be", toL "been",
   toL "being", toL "have", toL "has", toL "had", toL "do", toL "does",
   toL "did", toL "will", toL "would", toL "could", toL "should"]

/-- Python `str.split()` on fuel (each step consumes at least one character,
so `s.length` steps suffice; see `splitWs`). -/
def splitWsF : Nat → Str → List Str
  | 0, _ => []
  | _ + 1, [] => []
  | fuel + 1, c :: cs =>
    if pyIsSpace c then splitWsF fuel cs
    else (c :: cs.takeWhile (fun x => !pyIsSpace x)) ::
      splitWsF fuel (cs.drop (cs.takeWhile (fun x => !pyIsSpace x)).length)

/-- Python `str.split()`: split on whitespace runs, discarding empty pieces. -/
def splitWs (s : Str) : List Str := splitWsF s.length s

/-- `' '.join(words)`. -/
def joinSpace (ws : List Str) : Str := List.intercalate [' '] ws

/-- `_normalize_description`. -/
def normalizeDescription (description : Str) : Str :=
  if description = [] then []
  else
    let n := pyLower description
    let n := subScan matchHtmlTag none n
    let n := collapseWsStrip n
    joinSpace ((splitWs n).filter fun w =>
      !(stopWords.contains w) && decide (w.length > 2))

/-!
## `difflib.SequenceMatcher` (as used with `isjunk=None`, `autojunk=True`)

`_calculate_signature_similarity` calls `SequenceMatcher(None, s1, s2).ratio()`.
The embedding below follows CPython's `difflib` faithfully:
* `__chain_b` builds `b2j`, the map from each element of `b` to its ascending
  list of indices, and (since `autojunk` defaults to `True`) deletes "popular"
  elements — those occurring more than `len(b)//100 + 1` times — when
  `len(b) >= 200`.  `isjunk` is `None`, so the junk set `bjunk` is empty.
* `find_longest_match` runs the `j2len` dynamic program over `b2j`, then
  extends the best block over equal elements at both ends (the first pair of
  `while` loops; the second, junk-only pair never fires because `bjunk` is
  empty).
* `ratio()` sums the sizes of the recursively collected matching blocks and
  returns `2*matches/(len(a)+len(b))`, or `1.0` when both are empty.
-/

/-- Character of `s` at index `i` (indices are always in range at use sites). -/
def chAt (s : Str) (i : Nat) : Char := s.getD i ' '

/-- Number of occurrences of `c` in `b`. -/
def countC (b : Str) (c : Char) : Nat := (b.filter (fun x => x == c)).length

/-- Ascending list of indices of `c` in `b` (the `b2j` entry before purging). -/
def indicesOf (b : Str) (c : Char) : List Nat :=
  (List.range b.length).filter (fun j => chAt b j == c)

/-- Is `c` "popular" in `b`?  (`autojunk` purging: `len(b) >= 200` and more
than `len(b)//100 + 1` occurrences.) -/
def isPopular (b : Str) (c : Char) : Bool :=
  decide (200 ≤ b.length) && decide (b.length / 100 + 1 < countC b c)

/-- `b2j.get(c, [])` after the autojunk purge. -/
def b2jOf (b : Str) (c : Char) : List Nat :=
  if isPopular b c then [] else indicesOf b c

/-- `(besti, bestj, bestsize)`. -/
abbrev Best := Nat × Nat × Nat

/-- The inner loop of `find_longest_match` for one `i`: walk the ascending
index list `b2j[a[i]]`, skipping `j < blo` (`continue`) and stopping at
`j >= bhi` (`break`); `k = j2len.get(j-1, 0) + 1` reads the previous row. -/
def dpInner (j2lenOld : Nat → Nat) (i blo bhi : Nat) :
    List Nat → (Nat → Nat) → Best → ((Nat → Nat) × Best)
  | [], acc, best => (acc, best)
  | j :: js, acc, best =>
    if j < blo then dpInner j2lenOld i blo bhi js acc best
    else if bhi ≤ j then (acc, best)
    else
      let k := (if j = 0 then 0 else j2lenOld (j - 1)) + 1
      let acc' := fun j' => if j' = j then k else acc j'
      let best' := if best.2.2 < k then (i + 1 - k, j + 1 - k, k) else best
      dpInner j2lenOld i blo bhi js acc' best'

/-- The outer loop of `find_longest_match` over `i in range(alo, ahi)`; each
iteration starts a fresh `newj2len` row. -/
def dpOuter (a b : Str) (blo bhi : Nat) : List Nat → (Nat → Nat) → Best → Best
  | [], _, best => best
  | i :: is, j2len, best =>
    let st := dpInner j2len i blo bhi (b2jOf b (chAt a i)) (fun _ => 0) best
    dpOuter a b blo bhi is st.1 st.2

/-- First extension `while` loop of `find_longest_match`: grow the block
backwards over equal elements (`bjunk` is empty, so the junk test is vacuous).
`bi` decreases by one per iteration and stays above `alo ≥ 0`, so running the
loop on `fuel = bi` reproduces the `while` exactly: fuel runs out only when
`bi = 0`, where the guard is false anyway (see `extendBack`). -/
def extendBackF (a b : Str) (alo blo : Nat) : Nat → Nat → Nat → Nat → Best
  | 0, bi, bj, k => (bi, bj, k)
  | fuel + 1, bi, bj, k =>
    if alo < bi ∧ blo < bj ∧ chAt a (bi - 1) = chAt b (bj - 1) then
      extendBackF a b alo blo fuel (bi - 1) (bj - 1) (k + 1)
    else (bi, bj, k)

/-- The backward extension loop. -/
def extendBack (a b : Str) (alo blo : Nat) (bi bj k : Nat) : Best :=
  extendBackF a b alo blo bi bi bj k

/-- Second extension `while` loop: grow the block forwards over equal
elements.  `ahi - (bi + k)` decreases by one per iteration, so that much fuel
reproduces the `while` exactly: fuel runs out only when `bi + k ≥ ahi`, where
the guard is false anyway (see `extendFwd`). -/
def extendFwdF (a b : Str) (ahi bhi : Nat) : Nat → Nat → Nat → Nat → Best
  | 0, bi, bj, k => (bi, bj, k)
  | fuel + 1, bi, bj, k =>
    if bi + k < ahi ∧ bj + k < bhi ∧ chAt a (bi + k) = chAt b (bj + k) then
      extendFwdF a b ahi bhi fuel bi bj (k + 1)
    else (bi, bj, k)

/-- The forward extension loop. -/
def extendFwd (a b : Str) (ahi bhi : Nat) (bi bj k : Nat) : Best :=
  extendFwdF a b ahi bhi (ahi - (bi + k)) bi bj k

/-- `find_longest_match(alo, ahi, blo, bhi)`.  The two junk-extension loops of
difflib are omitted: `isjunk` is `None`, so `bjunk` is empty and they never
execute. -/
def findLongestMatch (a b : Str) (alo ahi blo bhi : Nat) : Best :=
  let d := dpOuter a b blo bhi (List.range' alo (ahi - alo)) (fun _ => 0) (alo, blo, 0)
  let e := extendBack a b alo blo d.1 d.2.1 d.2.2
  extendFwd a b ahi bhi e.1 e.2.1 e.2.2

/-- Total size of the matching blocks collected by `get_matching_blocks`'s
divide-and-conquer (the queue order does not affect the sum, and merging
adjacent blocks plus the zero-size terminator do not change it).  `fuel`
bounds the recursion depth; `len(a)+len(b)` always suffices since each level
consumes at least one element of each range it splits. -/
def matchesSumF (a b : Str) : Nat → Nat → Nat → Nat → Nat → Nat
  | 0, _, _, _, _ => 0
  | fuel + 1, alo, ahi, blo, bhi =>
    let m := findLongestMatch a b alo ahi blo bhi
    if m.2.2 = 0 then 0
    else m.2.2
      + (if alo < m.1 ∧ blo < m.2.1 then matchesSumF a b fuel alo m.1 blo m.2.1 else 0)
      + (if m.1 + m.2.2 < ahi ∧ m.2.1 + m.2.2 < bhi then
           matchesSumF a b fuel (m.1 + m.2.2) ahi (m.2.1 + m.2.2) bhi
         else 0)

/-- `sum(triple[-1] for triple in self.get_matching_blocks())`. -/
def matchesTotal (a b : Str) : Nat :=
  matchesSumF a b (a.length + b.length) 0 a.length 0 b.length

/-- `SequenceMatcher(None, a, b).ratio()`:
`2.0*matches/(len(a)+len(b))`, and `1.0` when both strings are empty. -/
def seqMatcherScore (a b : Str) : ℚ :=
  if a.length + b.length = 0 then 1
  else 2 * (matchesTotal a b : ℚ) / ((a.length : ℚ) + (b.length : ℚ))

/-! ## Job records, signatures, fuzzy similarity -/

/-- A job record as consumed by `add_job` (`job_data: Dict`); every access in
the source is `job_data.get(key, '')`, so a missing key behaves exactly like
the empty string and records are modelled by their five relevant string
fields.  (Python `None` values, which do *not* behave like `''`, are modelled
separately below.) -/
structure JobRecord where
  title : Str
  company : Str
  location : Str
  description : Str
  source_url : Str
deriving DecidableEq

/-- `_generate_job_hash`: md5 of
`f"{title.lower().strip()}|{company.lower().strip()}|{source_url}"`, with the
digest modelled by its preimage. -/
def jobHash (r : JobRecord) : Str :=
  pyStrip (pyLower r.title) ++ ['|'] ++ pyStrip (pyLower r.company) ++ ['|'] ++ r.source_url

/-- The signature dict built by `_create_job_signature`. -/
structure JobSignature where
  title : Str
  company : Str
  location : Str
  title_words : Finset Str
  company_words : Finset Str
  location_words : Finset Str
deriving DecidableEq

/-- `_create_job_signature`. -/
def createJobSignature (r : JobRecord) : JobSignature :=
  let t := normalizeTitle r.title
  let c := normalizeCompany r.company
  let l := normalizeLocation r.location
  ⟨t, c, l, (splitWs t).toFinset, (splitWs c).toFinset, (splitWs l).toFinset⟩

/-- `len(A & B) / max(len(A | B), 1)` — the word-overlap term of
`_calculate_signature_similarity`. -/
def wordOverlap (A B : Finset Str) : ℚ :=
  ((A ∩ B).card : ℚ) / (max (A ∪ B).card 1 : ℚ)

/-- `_calculate_signature_similarity`. -/
def signatureSimilarity (sig1 sig2 : JobSignature) : ℚ :=
  let title_sim := seqMatcherScore sig1.title sig2.title
  let company_sim := seqMatcherScore sig1.company sig2.company
  let location_sim := seqMatcherScore sig1.location sig2.location
  let title_word_overlap := wordOverlap sig1.title_words sig2.title_words
  let company_word_overlap := wordOverlap sig1.company_words sig2.company_words
  title_sim * 0.4 + company_sim * 0.3 + location_sim * 0.1 +
    title_word_overlap * 0.15 + company_word_overlap * 0.05

/-- The fuzzy-duplicate test applied to each tracked signature:
`similarity >= self.similarity_threshold`. -/
def isFuzzyDup (sig1 sig2 : JobSignature) (thr : ℚ) : Bool :=
  thr ≤ signatureSimilarity sig1 sig2

/-- `_calculate_content_similarity`: exact hash equality, `1.0` or `0.0`. -/
def contentSimilarity (h1 h2 : Str) : ℚ := if h1 = h2 then 1 else 0

/-- `_generate_content_hash`: md5 of the normalized description, with the
digest modelled by its preimage. -/
def contentHash (description : Str) : Str := normalizeDescription description

/-! ## The engine (`DuplicateDetector`) -/

/-- The `DuplicateMatch` dataclass. -/
structure DuplicateMatch where
  job1_hash : Str
  job2_hash : Str
  similarity_score : ℚ
  match_type : Str
  confidence : ℚ
deriving DecidableEq

/-- The mutable state of a `DuplicateDetector`.  Python's insertion-ordered
`dict`s are association lists; the `exact_matches` set is a list (only
membership and size are used, and keys are inserted at most once along
reachable states). -/
structure Detector where
  similarity_threshold : ℚ
  exact_matches : List Str
  fuzzy_matches : List (Str × List Str)
  content_hashes : List (Str × Str)
  job_signatures : List (Str × JobSignature)
deriving DecidableEq

/-- `DuplicateDetector.__init__`. -/
def Detector.init (thr : ℚ) : Detector := ⟨thr, [], [], [], []⟩

/-- The loop of `_find_fuzzy_duplicate` over `self.job_signatures.items()`
(insertion order), skipping `existing_hash == job_hash`, returning the first
signature whose similarity reaches the threshold. -/
def findFuzzyAux (thr : ℚ) (cur : JobSignature) (h : Str) :
    List (Str × JobSignature) → Option DuplicateMatch
  | [] => none
  | p :: rest =>
    if p.1 = h then findFuzzyAux thr cur h rest
    else
      let sim := signatureSimilarity cur p.2
      if thr ≤ sim then some ⟨h, p.1, sim, toL "fuzzy", sim⟩
      else findFuzzyAux thr cur h rest

/-- `_find_fuzzy_duplicate` (its `title`/`company`/`location` locals are used
only in a debug log line and raise only on `None`, handled in the Python-value
model below). -/
def Detector.findFuzzyDuplicate (d : Detector) (r : JobRecord) (h : Str) :
    Option DuplicateMatch :=
  findFuzzyAux d.similarity_threshold (createJobSignature r) h d.job_signatures

/-- The loop of `_find_content_duplicate` over `self.content_hashes.items()`. -/
def findContentAux (thr : ℚ) (ch : Str) (h : Str) :
    List (Str × Str) → Option DuplicateMatch
  | [] => none
  | p :: rest =>
    if p.1 = h then findContentAux thr ch h rest
    else
      let sim := contentSimilarity ch p.2
      if thr ≤ sim then some ⟨h, p.1, sim, toL "content", sim⟩
      else findContentAux thr ch h rest

/-- `_find_content_duplicate`: empty or short (`< 100`) descriptions are never
checked. -/
def Detector.findContentDuplicate (d : Detector) (r : JobRecord) (h : Str) :
    Option DuplicateMatch :=
  if r.description = [] ∨ r.description.length < 100 then none
  else findContentAux d.similarity_threshold (contentHash r.description) h d.content_hashes

/-- `_add_to_tracking`: the hash joins `exact_matches` and `job_signatures`
unconditionally; the content hash is stored whenever the description is
*truthy* (non-empty) — note: not only when it has length ≥ 100. -/
def Detector.addToTracking (d : Detector) (r : JobRecord) (h : Str) : Detector :=
  { d with
    exact_matches := d.exact_matches ++ [h]
    job_signatures := d.job_signatures ++ [(h, createJobSignature r)]
    content_hashes :=
      if r.description ≠ [] then d.content_hashes ++ [(h, contentHash r.description)]
      else d.content_hashes }

/-- Decimal digits of a natural number (on fuel; `n / 10 < n` for `n ≥ 10`,
so `n + 1` steps always suffice; see `natDigits`). -/
def natDigitsF : Nat → Nat → Str
  | 0, _ => []
  | fuel + 1, n =>
    if n < 10 then [Char.ofNat (48 + n)]
    else natDigitsF fuel (n / 10) ++ [Char.ofNat (48 + n % 10)]

/-- Decimal digits of a natural number. -/
def natDigits (n : Nat) : Str := natDigitsF (n + 1) n

/-- Python's `f"{x:.2f}"` on the exact rational value: two decimal places.
(Python rounds the underlying float half-to-even; this model rounds the exact
rational half-up.  Every score a theorem below formats is an exact multiple of
`1/100`, where the two agree.) -/
def fmt2 (q : ℚ) : Str :=
  let n : ℤ := round (q * 100)
  let sign : Str := if n < 0 then ['-'] else []
  let m := n.natAbs
  sign ++ natDigits (m / 100) ++ ['.'] ++
    (if m % 100 < 10 then ['0'] else []) ++ natDigits (m % 100)

/-- `add_job`: exact check, then fuzzy, then content, else track as unique.
Returns the new state together with the `(is_duplicate, reason)` pair. -/
def Detector.addJob (d : Detector) (r : JobRecord) : Detector × Bool × Str :=
  let h := jobHash r
  if h ∈ d.exact_matches then (d, true, toL "exact_match")
  else
    match d.findFuzzyDuplicate r h with
    | some m => (d, true, toL "fuzzy_match_" ++ fmt2 m.similarity_score)
    | none =>
      match d.findContentDuplicate r h with
      | some m => (d, true, toL "content_match_" ++ fmt2 m.similarity_score)
      | none => (d.addToTracking r h, false, toL "unique")

/-- The dict returned by `get_stats`. -/
structure Stats where
  total_jobs_tracked : Nat
  fuzzy_signatures : Nat
  content_hashes : Nat
  similarity_threshold : ℚ
deriving DecidableEq

/-- `get_stats`. -/
def Detector.getStats (d : Detector) : Stats :=
  ⟨d.exact_matches.length, d.job_signatures.length,
   d.content_hashes.length, d.similarity_threshold⟩

/-- `clear`: empties all four tracking structures. -/
def Detector.clear (d : Detector) : Detector :=
  { d with exact_matches := [], fuzzy_matches := [],
           content_hashes := [], job_signatures := [] }

/-- One external call on the engine. -/
inductive Op where
  | add (r : JobRecord)
  | clear

/-- Run a sequence of `add_job` / `clear` calls. -/
def runOps (ops : List Op) (d : Detector) : Detector :=
  ops.foldl (fun d op => match op with
    | .add r => (d.addJob r).1
    | .clear => d.clear) d

/-!
## Python-value model of `add_job` inputs (for the never-raises claim)

A field of the incoming dict can be absent, the Python value `None`, or a
string.  `job_data.get(k, '')` yields `''` for an absent key but yields `None`
for a key stored as `None`, and `None.lower()` raises `AttributeError`.
`Option` is the raise monad: a `none` result of `addJobPy` means the call
raised.
-/

/-- A Python value stored under a key: `None` or a string. -/
inductive PyVal where
  | noneVal
  | strVal (s : Str)
deriving DecidableEq

/-- A job dict whose five relevant keys may each be absent (`none`), `None`
(`some .noneVal`), or a string. -/
structure PyJobRecord where
  title : Option PyVal
  company : Option PyVal
  location : Option PyVal
  description : Option PyVal
  source_url : Option PyVal
deriving DecidableEq

/-- `job_data.get(key, dflt)`: `some` a string, or `none` for Python `None`. -/
def pyGet : Option PyVal → Str → Option Str
  | Option.none, dflt => some dflt
  | some .noneVal, _ => Option.none
  | some (.strVal s), _ => some s

/-- `.lower().strip()` on a `get` result: raises (`Option.none`) on `None`. -/
def pyLowerStripOpt : Option Str → Option Str
  | Option.none => Option.none
  | some s => some (pyStrip (pyLower s))

/-- f-string interpolation of a `get` result: `str(None)` is `"None"`. -/
def fStr : Option Str → Str
  | Option.none => toL "None"
  | some s => s

/-- `_generate_job_hash` on a Python dict: raises iff title or company is
`None` (the f-string renders a `None` source_url as `"None"` without raising). -/
def pyJobHash (r : PyJobRecord) : Option Str :=
  match pyLowerStripOpt (pyGet r.title []) with
  | Option.none => Option.none
  | some t =>
    match pyLowerStripOpt (pyGet r.company []) with
    | Option.none => Option.none
    | some c => some (t ++ ['|'] ++ c ++ ['|'] ++ fStr (pyGet r.source_url []))

/-- `_normalize_title(job_data.get('title', ''))`: the normalizer's
`if not title` guard absorbs `None` into `""`. -/
def normalizeOpt (f : Str → Str) : Option Str → Str
  | Option.none => []
  | some s => f s

/-- `_create_job_signature` on a Python dict (never raises). -/
def createJobSignaturePy (r : PyJobRecord) : JobSignature :=
  let t := normalizeOpt normalizeTitle (pyGet r.title [])
  let c := normalizeOpt normalizeCompany (pyGet r.company [])
  let l := normalizeOpt normalizeLocation (pyGet r.location [])
  ⟨t, c, l, (splitWs t).toFinset, (splitWs c).toFinset, (splitWs l).toFinset⟩

/-- `add_job` on a Python dict, with raising modelled by `Option`:
`_generate_job_hash` raises on a `None` title or company; after the exact
check, `_find_fuzzy_duplicate` recomputes `.lower().strip()` of title, company
and location for its log line (lines 76–78) and raises on a `None` location
(title and company cannot still be `None` there, but the checks are kept in
source order); `None` descriptions never raise (`if not description` and
`if description:` absorb them). -/
def addJobPy (d : Detector) (r : PyJobRecord) : Option (Detector × Bool × Str) :=
  match pyJobHash r with
  | Option.none => Option.none
  | some h =>
    if h ∈ d.exact_matches then some (d, true, toL "exact_match")
    else
      match pyLowerStripOpt (pyGet r.title []) with
      | Option.none => Option.none
      | some _ =>
        match pyLowerStripOpt (pyGet r.company []) with
        | Option.none => Option.none
        | some _ =>
          match pyLowerStripOpt (pyGet r.location []) with
          | Option.none => Option.none
          | some _ =>
            let sig := createJobSignaturePy r
            match findFuzzyAux d.similarity_threshold sig h d.job_signatures with
            | some m => some (d, true, toL "fuzzy_match_" ++ fmt2 m.similarity_score)
            | Option.none =>
              let desc := pyGet r.description []
              let contentRes := match desc with
                | Option.none => Option.none
                | some ds =>
                  if ds = [] ∨ ds.length < 100 then Option.none
                  else findContentAux d.similarity_threshold (contentHash ds) h d.content_hashes
              match contentRes with
              | some m => some (d, true, toL "content_match_" ++ fmt2 m.similarity_score)
              | Option.none =>
                let d' := { d with
                  exact_matches := d.exact_matches ++ [h]
                  job_signatures := d.job_signatures ++ [(h, sig)]
                  content_hashes := match desc with
                    | some ds =>
                      if ds ≠ [] then d.content_hashes ++ [(h, contentHash ds)]
                      else d.content_hashes
                    | Option.none => d.content_hashes }
                some (d', false, toL "unique")

/-- The plain record a `None`-free Python dict denotes: an absent key is `''`
(`get` default), a `None` description behaves as `''`, and a `None` source_url
renders as the string `"None"` in the hash. -/
def toPlain (r : PyJobRecord) : JobRecord :=
  ⟨(pyGet r.title []).getD [], (pyGet r.company []).getD [],
   (pyGet r.location []).getD [], (pyGet r.description []).getD [],
   fStr (pyGet r.source_url [])⟩

/-! ## Auxiliary definitions used by the verification (invariants, diagonal
runs of the self-match DP, and concrete counterexample records) -/

/-- The structural invariant of reachable states: the signature map has
exactly the tracked hashes as keys (in order), and the content-hash keys form
a subsequence of them. -/
def Inv (d : Detector) : Prop :=
  d.job_signatures.map Prod.fst = d.exact_matches ∧
  (d.content_hashes.map Prod.fst).Sublist d.exact_matches

/-- A record with a short (11-character) but non-empty description. -/
def rShortDesc : JobRecord :=
  ⟨toL "alpha", toL "zzz", [], toL "programming", toL "u1"⟩

/-- A record with a 131-character description whose *normalized* description
equals `rShortDesc`'s (all the padding consists of stop words). -/
def rLongDesc : JobRecord :=
  ⟨toL "omega", toL "qqq", [],
   toL ("programming" ++ String.join (List.replicate 30 " the")), toL "u2"⟩

/-- The returned block `(bi, bj, k)` lies inside `[alo, ahi) × [blo, bhi)`. -/
def BoundsOK (alo ahi blo bhi : Nat) (t : Best) : Prop :=
  alo ≤ t.1 ∧ blo ≤ t.2.1 ∧ t.1 + t.2.2 ≤ ahi ∧ t.2.1 + t.2.2 ≤ bhi

/-- The length of the maximal run of non-popular characters of `a` ending at
`j` (the diagonal chain value the DP records at `(j, j)` when `a = b`). -/
def diagRun (a : Str) : Nat → Nat
  | 0 => if isPopular a (chAt a 0) then 0 else 1
  | j + 1 => if isPopular a (chAt a (j + 1)) then 0 else diagRun a j + 1

/-- Largest diagonal run ending strictly before `i`. -/
def maxDiag (a : Str) : Nat → Nat
  | 0 => 0
  | i + 1 => max (maxDiag a i) (diagRun a i)

/-- The `j2len` map invariant before processing step `i` of the self-match
DP. -/
def StepInv (a : Str) (i : Nat) (f : Nat → Nat) : Prop :=
  (∀ j, f j ≤ diagRun a j) ∧
  (∀ j, f j ≤ (if i = 0 then 0 else diagRun a (i - 1))) ∧
  (i ≠ 0 → isPopular a (chAt a (i - 1)) = false → f (i - 1) = diagRun a (i - 1))

/-- The best block is diagonal with size `maxDiag a i` before step `i`. -/
def BestInv (a : Str) (i : Nat) (t : Best) : Prop :=
  ∃ p s, t = (p, p, s) ∧ s = maxDiag a i ∧ p + s ≤ i

/-- The record tracked first in the C6 counterexample (106-char description). -/
def rContentA : JobRecord :=
  ⟨toL "a", toL "b", [],
   toL "We are looking for a talented software engineer to join our dynamic team with many exciting projects here.",
   toL "u1"⟩

/-- A second record with the same description but different title, company and
source_url. -/
def rContentB : JobRecord :=
  ⟨toL "c", toL "d", [],
   toL "We are looking for a talented software engineer to join our dynamic team with many exciting projects here.",
   toL "u2"⟩

/-! ## Engine-level helper lemmas -/

theorem findFuzzyAux_nil (thr : ℚ) (cur : JobSignature) (h : Str) :
    findFuzzyAux thr cur h [] = none := rfl

theorem findContentAux_nil (thr : ℚ) (ch h : Str) :
    findContentAux thr ch h [] = none := rfl

/-- On an engine with no tracked state, any record is classified unique and
gets tracked. -/
theorem addJob_empty_state (d : Detector)
    (he : d.exact_matches = []) (hs : d.job_signatures = [])
    (hc : d.content_hashes = []) (r : JobRecord) :
    d.addJob r = (d.addToTracking r (jobHash r), false, toL "unique") := by
  unfold Detector.addJob Detector.findFuzzyDuplicate Detector.findContentDuplicate
  rw [he, hs, hc]
  simp only [List.not_mem_nil, if_false, findFuzzyAux_nil, findContentAux_nil, ite_self]

/-- Exact lookup short-circuits everything: if the primary hash is tracked,
`add_job` answers `(True, "exact_match")` and leaves the state untouched,
whatever the fuzzy/content state holds. -/
theorem addJob_exact_short_circuit (d : Detector) (r : JobRecord)
    (hmem : jobHash r ∈ d.exact_matches) :
    d.addJob r = (d, true, toL "exact_match") := by
  unfold Detector.addJob
  simp [hmem]

/-- A freshly tracked hash is in `exact_matches`. -/
theorem addToTracking_mem (d : Detector) (r : JobRecord) (h : Str) :
    h ∈ (d.addToTracking r h).exact_matches := by
  simp [Detector.addToTracking]

/-- `add_job` either leaves the state alone (duplicate) or tracks the new
record (unique). -/
theorem addJob_state_cases (d : Detector) (r : JobRecord) :
    (d.addJob r).1 = d ∨ (d.addJob r).1 = d.addToTracking r (jobHash r) := by
  unfold Detector.addJob
  by_cases hm : jobHash r ∈ d.exact_matches
  · simp [hm]
  · simp only [hm, if_false]
    cases d.findFuzzyDuplicate r (jobHash r) with
    | some m => simp
    | none =>
      cases d.findContentDuplicate r (jobHash r) with
      | some m => simp
      | none => simp

theorem addJob_threshold (d : Detector) (r : JobRecord) :
    (d.addJob r).1.similarity_threshold = d.similarity_threshold := by
  rcases addJob_state_cases d r with h | h
  · rw [h]
  · rw [h]; rfl

theorem clear_eq_init (d : Detector) :
    d.clear = Detector.init d.similarity_threshold := rfl

theorem runOps_threshold (ops : List Op) (d : Detector) :
    (runOps ops d).similarity_threshold = d.similarity_threshold := by
  induction ops generalizing d with
  | nil => rfl
  | cons op ops ih =>
    cases op with
    | add r => rw [runOps, List.foldl_cons, ← runOps, ih, addJob_threshold]
    | clear => rw [runOps, List.foldl_cons, ← runOps, ih]; rfl

theorem inv_addJob (d : Detector) (r : JobRecord) (hd : Inv d) :
    Inv (d.addJob r).1 := by
  rcases addJob_state_cases d r with h | h <;> rw [h]
  · exact hd
  · obtain ⟨h1, h2⟩ := hd
    constructor
    · simp [Detector.addToTracking, h1]
    · simp only [Detector.addToTracking]
      split
      · simpa using h2.append (List.Sublist.refl [jobHash r])
      · exact h2.trans (List.sublist_append_left _ _)

theorem inv_runOps (thr : ℚ) (ops : List Op) :
    Inv (runOps ops (Detector.init thr)) := by
  have step : ∀ (d : Detector) (ops : List Op), Inv d → Inv (runOps ops d) := by
    intro d ops
    induction ops generalizing d with
    | nil => exact fun h => h
    | cons op ops ih =>
      intro hd
      cases op with
      | add r => exact ih _ (inv_addJob d r hd)
      | clear => exact ih _ ⟨rfl, List.nil_sublist _⟩
  exact step _ _ ⟨rfl, List.nil_sublist _⟩

/-! ## Claims -/

/-- C1: on a fresh engine (or after `clear()`), the first `add_job` of any
record returns `(False, "unique")` and the second `add_job` of the identical
record returns `(True, "exact_match")`; the exact-hash lookup is checked
first and short-circuits fuzzy and content matching (whenever the hash is
tracked, the answer is `(True, "exact_match")` with the state untouched,
regardless of the fuzzy/content state). -/
theorem C1_exact_idempotence : ∀ (thr : ℚ) (d : Detector) (r : JobRecord),
    ((Detector.init thr).addJob r).2 = (false, toL "unique")
    ∧ (((Detector.init thr).addJob r).1.addJob r).2 = (true, toL "exact_match")
    ∧ (d.clear.addJob r).2 = (false, toL "unique")
    ∧ ((d.clear.addJob r).1.addJob r).2 = (true, toL "exact_match")
    ∧ (jobHash r ∈ d.exact_matches → d.addJob r = (d, true, toL "exact_match")) := by
  intro thr d r
  have h1 : ∀ t : ℚ, (Detector.init t).addJob r
      = ((Detector.init t).addToTracking r (jobHash r), false, toL "unique") :=
    fun t => addJob_empty_state _ rfl rfl rfl r
  have h2 : ∀ t : ℚ, (((Detector.init t).addJob r).1.addJob r).2
      = (true, toL "exact_match") := by
    intro t
    rw [h1 t]
    rw [addJob_exact_short_circuit _ r (addToTracking_mem _ r _)]
  refine ⟨by rw [h1], h2 thr, ?_, ?_, fun hm => addJob_exact_short_circuit d r hm⟩
  · rw [clear_eq_init, h1]
  · rw [clear_eq_init]; exact h2 _

/-- Witness for C1 at a concrete record and a state that tracks its hash. -/
theorem C1_exact_idempotence_witness :
    (let r : JobRecord := ⟨toL "a", toL "b", toL "c", toL "d", toL "u"⟩
     let d := (Detector.init (85/100)).addToTracking r (jobHash r)
     d.addJob r = (d, true, toL "exact_match")) :=
  (C1_exact_idempotence (85/100) _ _).2.2.2.2 (addToTracking_mem _ _ _)

/-- C7: a duplicate verdict leaves all four internal structures (and the
threshold) untouched; a unique verdict appends exactly the record's primary
hash to `exact_matches` and its signature to `job_signatures` (with
`fuzzy_matches` untouched), and the hash was new — a hash enters the state
iff the job was classified unique. -/
theorem C7_frame_effect : ∀ (d : Detector) (r : JobRecord),
    ((d.addJob r).2.1 = true → (d.addJob r).1 = d)
    ∧ ((d.addJob r).2.1 = false →
        (d.addJob r).1.exact_matches = d.exact_matches ++ [jobHash r]
        ∧ (d.addJob r).1.job_signatures
            = d.job_signatures ++ [(jobHash r, createJobSignature r)]
        ∧ (d.addJob r).1.fuzzy_matches = d.fuzzy_matches
        ∧ (d.addJob r).1.similarity_threshold = d.similarity_threshold
        ∧ jobHash r ∉ d.exact_matches
        ∧ jobHash r ∈ (d.addJob r).1.exact_matches) := by
  intro d r
  by_cases hm : jobHash r ∈ d.exact_matches
  · rw [addJob_exact_short_circuit d r hm]
    exact ⟨fun _ => rfl, by simp⟩
  · unfold Detector.addJob
    simp only [hm, if_false]
    cases d.findFuzzyDuplicate r (jobHash r) with
    | some m => exact ⟨fun _ => rfl, by simp⟩
    | none =>
      cases d.findContentDuplicate r (jobHash r) with
      | some m => exact ⟨fun _ => rfl, by simp⟩
      | none =>
        refine ⟨by simp, fun _ => ⟨rfl, rfl, rfl, rfl, not_false, ?_⟩⟩
        exact addToTracking_mem d r _

/-- Witness for C7: a unique classification on a fresh engine appends the
hash. -/
theorem C7_frame_effect_witness :
    (let r : JobRecord := ⟨toL "a", toL "b", toL "c", toL "d", toL "u"⟩
     ((Detector.init (85/100)).addJob r).1.exact_matches = [] ++ [jobHash r]) :=
  (((C7_frame_effect (Detector.init (85/100)) _).2) (by decide)).1

/-- C9: after any sequence of calls, `clear()` returns the engine to the
freshly constructed state with the same threshold; in particular re-adding a
previously seen record after `clear()` yields `(False, "unique")`. -/
theorem C9_clear_resets : ∀ (thr : ℚ) (ops : List Op) (r : JobRecord),
    (runOps ops (Detector.init thr)).clear = Detector.init thr
    ∧ ((runOps ops (Detector.init thr)).clear.addJob r).2 = (false, toL "unique") := by
  intro thr ops r
  have h1 : (runOps ops (Detector.init thr)).clear = Detector.init thr := by
    rw [clear_eq_init, runOps_threshold]; rfl
  refine ⟨h1, ?_⟩
  rw [h1, addJob_empty_state _ rfl rfl rfl r]

/-- C10: after any call sequence, `get_stats` reports
`total_jobs_tracked = fuzzy_signatures`, `content_hashes ≤ total_jobs_tracked`
and the constructed threshold. -/
theorem C10_stats_invariant : ∀ (thr : ℚ) (ops : List Op),
    ((runOps ops (Detector.init thr)).getStats).total_jobs_tracked
        = ((runOps ops (Detector.init thr)).getStats).fuzzy_signatures
    ∧ ((runOps ops (Detector.init thr)).getStats).content_hashes
        ≤ ((runOps ops (Detector.init thr)).getStats).total_jobs_tracked
    ∧ ((runOps ops (Detector.init thr)).getStats).similarity_threshold = thr := by
  intro thr ops
  obtain ⟨h1, h2⟩ := inv_runOps thr ops
  refine ⟨?_, ?_, ?_⟩
  · show (runOps ops (Detector.init thr)).exact_matches.length
        = (runOps ops (Detector.init thr)).job_signatures.length
    rw [← h1, List.length_map]
  · show (runOps ops (Detector.init thr)).content_hashes.length
        ≤ (runOps ops (Detector.init thr)).exact_matches.length
    simpa using h2.length_le
  · exact runOps_threshold ops _

/-- `get` of a field that is not Python `None` yields a string. -/
theorem pyGet_isSome (v : Option PyVal) (hv : v ≠ some PyVal.noneVal) :
    ∃ s, pyGet v [] = some s := by
  match v with
  | Option.none => exact ⟨[], rfl⟩
  | some .noneVal => exact absurd rfl hv
  | some (.strVal s) => exact ⟨s, rfl⟩

/-- C4, counterexample: a record whose `title` key holds the Python value
`None` makes `add_job` raise `AttributeError` (`None.lower()` inside
`_generate_job_hash`), contradicting "may be ... None ... never raises". -/
theorem C4_counterexample :
    addJobPy (Detector.init (85/100))
      ⟨some .noneVal, some (.strVal []), some (.strVal []), some (.strVal []),
       some (.strVal (toL "u1"))⟩ = Option.none := rfl

/-- C4, amended: `add_job` never raises as long as title, company and location
are not the Python value `None` — each field may be missing or any string, a
`None`/missing description or source_url is also safe (`None` descriptions act
as `""`, a `None` source_url is rendered as the string `"None"` in the hash) —
and on such input it behaves exactly like the plain-string model; on a fresh
engine the all-empty record with any source_url yields `(False, "unique")`,
and all four normalizers map empty input to the empty string. -/
theorem C4_empty_input_safety_amended : ∀ (d : Detector) (r : PyJobRecord),
    r.title ≠ some PyVal.noneVal → r.company ≠ some PyVal.noneVal →
    r.location ≠ some PyVal.noneVal →
    addJobPy d r = some (d.addJob (toPlain r))
    ∧ (∀ (thr : ℚ) (url : Str),
        ((Detector.init thr).addJob ⟨[], [], [], [], url⟩).2 = (false, toL "unique"))
    ∧ normalizeTitle [] = [] ∧ normalizeCompany [] = []
    ∧ normalizeLocation [] = [] ∧ normalizeDescription [] = [] := by
  intro d r hti hco hlo
  refine ⟨?_, fun thr url => by rw [addJob_empty_state _ rfl rfl rfl], rfl, rfl, rfl, rfl⟩
  obtain ⟨ti, co, lo, de, ur⟩ := r
  obtain ⟨t, ht⟩ := pyGet_isSome ti hti
  obtain ⟨c, hc⟩ := pyGet_isSome co hco
  obtain ⟨l, hl⟩ := pyGet_isSome lo hlo
  have hplain : toPlain ⟨ti, co, lo, de, ur⟩
      = ⟨t, c, l, (pyGet de []).getD [], fStr (pyGet ur [])⟩ := by
    unfold toPlain
    rw [ht, hc, hl]
    rfl
  rw [hplain]
  have hsig : createJobSignaturePy ⟨ti, co, lo, de, ur⟩
      = createJobSignature ⟨t, c, l, (pyGet de []).getD [], fStr (pyGet ur [])⟩ := by
    unfold createJobSignaturePy
    rw [ht, hc, hl]
    rfl
  have hcontent : ∀ (H : Str),
      (match pyGet de [] with
        | Option.none => Option.none
        | some ds =>
          if ds = [] ∨ ds.length < 100 then Option.none
          else findContentAux d.similarity_threshold (contentHash ds) H d.content_hashes)
      = d.findContentDuplicate ⟨t, c, l, (pyGet de []).getD [], fStr (pyGet ur [])⟩ H := by
    intro H
    rcases de with _ | (_ | ds) <;> rfl
  have htrack : ∀ (H : Str) (sg : JobSignature),
      ({ d with
          exact_matches := d.exact_matches ++ [H]
          job_signatures := d.job_signatures ++ [(H, sg)]
          content_hashes := match pyGet de [] with
            | some ds =>
              if ds ≠ [] then d.content_hashes ++ [(H, contentHash ds)]
              else d.content_hashes
            | Option.none => d.content_hashes } : Detector)
      = { d with
          exact_matches := d.exact_matches ++ [H]
          job_signatures := d.job_signatures ++ [(H, sg)]
          content_hashes :=
            if (pyGet de []).getD [] ≠ [] then
              d.content_hashes ++ [(H, contentHash ((pyGet de []).getD []))]
            else d.content_hashes } := by
    intro H sg
    rcases de with _ | (_ | ds) <;> rfl
  unfold addJobPy pyJobHash
  rw [ht, hc, hl]
  simp only [pyLowerStripOpt]
  rw [hsig, hcontent]
  unfold Detector.addJob Detector.findFuzzyDuplicate Detector.addToTracking jobHash
  rw [apply_ite some]
  split
  · rfl
  · cases findFuzzyAux d.similarity_threshold
        (createJobSignature ⟨t, c, l, (pyGet de []).getD [], fStr (pyGet ur [])⟩)
        (pyStrip (pyLower t) ++ ['|'] ++ pyStrip (pyLower c) ++ ['|'] ++ fStr (pyGet ur []))
        d.job_signatures with
    | some m => rfl
    | none =>
      cases d.findContentDuplicate ⟨t, c, l, (pyGet de []).getD [], fStr (pyGet ur [])⟩
          (pyStrip (pyLower t) ++ ['|'] ++ pyStrip (pyLower c) ++ ['|'] ++ fStr (pyGet ur [])) with
      | some m => rfl
      | none => rw [htrack]

/-- Witness for C4 (amended) at a concrete `None`-free record with absent and
empty fields. -/
theorem C4_empty_input_safety_amended_witness :
    addJobPy (Detector.init (85/100))
        ⟨Option.none, some (.strVal []), Option.none, Option.none, some (.strVal (toL "u9"))⟩
      = some ((Detector.init (85/100)).addJob
          (toPlain ⟨Option.none, some (.strVal []), Option.none, Option.none,
            some (.strVal (toL "u9"))⟩)) :=
  (C4_empty_input_safety_amended (Detector.init (85/100)) _
    (by decide) (by decide) (by decide)).1

set_option maxRecDepth 16000 in
/-- C3, counterexample: after tracking a record whose description has length
11 < 100, its content hash *is* present in `content_hashes` (the claim says it
must not be), and that tracked short-description record *does* participate in
content matching: a later long record with the same normalized description is
classified `(True, "content_match_1.00")` (the claim says the tracked short
record never participates). -/
theorem C3_counterexample :
    rShortDesc.description.length < 100
    ∧ ((Detector.init (85/100)).addJob rShortDesc).1.content_hashes.map Prod.fst
        = [jobHash rShortDesc]
    ∧ 100 ≤ rLongDesc.description.length
    ∧ (((Detector.init (85/100)).addJob rShortDesc).1.addJob rLongDesc).2
        = (true, toL "content_match_1.00") := by
  refine ⟨by decide, by with_unfolding_all decide, by decide, ?_⟩
  with_unfolding_all decide

/-- C3, amended: a tracked job gets a content hash iff its description was
*non-empty* when it was added (the `>= 100` gate applies only to the incoming
side); an *incoming* record with description shorter than 100 characters is
never content-checked. -/
theorem C3_content_hash_presence_amended : ∀ (d : Detector) (r : JobRecord) (h : Str),
    (d.addToTracking r h).content_hashes
      = (if r.description ≠ [] then d.content_hashes ++ [(h, contentHash r.description)]
         else d.content_hashes)
    ∧ (r.description.length < 100 → d.findContentDuplicate r h = none) := by
  intro d r h
  refine ⟨rfl, fun hlen => ?_⟩
  unfold Detector.findContentDuplicate
  rw [if_pos (Or.inr hlen)]

/-- Witness for C3 (amended) at a concrete short-description record. -/
theorem C3_content_hash_presence_amended_witness :
    (Detector.init (85/100)).findContentDuplicate rShortDesc (toL "x") = none :=
  (C3_content_hash_presence_amended (Detector.init (85/100)) rShortDesc (toL "x")).2
    (by decide)

/-- C5, counterexample: on `"engineer level 2"` the code returns
`"engineer level"` — the single digit `2` is removed by the whole-word digit
rule *before* the `level N` rule runs, so the word `level` survives, while the
claim demands that neither the word nor the number remain (i.e. `"engineer"`). -/
theorem C5_counterexample :
    normalizeTitle (toL "engineer level 2") = toL "engineer level" := by decide

/-- C5, amended: `normalize_title` lower-cases and strips, then removes
seniority tokens, then whole-word level tokens `i|ii|iii|iv|v|1|2|3|4|5`, then
`level N`/`lvl N` patterns whose number *survived* the preceding digit rule,
then collapses whitespace — so `level N` is fully removed only when `N` is not
a single digit 1–5; for `N ∈ {1..5}` the digit alone is removed and the word
`level`/`lvl` remains. -/
theorem C5_normalize_title_amended : ∀ (s : Str),
    normalizeTitle s
      = collapseWsStrip (subScan matchLevelNum none (subScan matchLevelToken none
          (subScan matchSeniority none (pyStrip (pyLower s)))))
    ∧ normalizeTitle (toL "engineer level 23") = toL "engineer"
    ∧ normalizeTitle (toL "engineer lvl 7") = toL "engineer"
    ∧ normalizeTitle (toL "  Senior Software Engineer II ") = toL "software engineer" := by
  intro s
  refine ⟨?_, by decide, by decide, by decide⟩
  by_cases hs : s = []
  · subst hs; rfl
  · unfold normalizeTitle
    rw [if_neg hs]

set_option maxRecDepth 16000 in
/-- C8, counterexample: the fuzzy similarity is *not* symmetric.  With titles
`"abcd"` and `"cdabzcd"` (signatures produced by the code's own signature
builder), `difflib.SequenceMatcher`'s ratio depends on the argument order
(`22/55` vs `... `), giving similarities `38/55 ≈ 0.691` and `6/11 ≈ 0.545`. -/
theorem C8_counterexample :
    signatureSimilarity (createJobSignature ⟨toL "abcd", [], [], [], toL "u1"⟩)
        (createJobSignature ⟨toL "cdabzcd", [], [], [], toL "u2"⟩)
      ≠ signatureSimilarity (createJobSignature ⟨toL "cdabzcd", [], [], [], toL "u2"⟩)
        (createJobSignature ⟨toL "abcd", [], [], [], toL "u1"⟩) := by
  with_unfolding_all decide

/-! ## `find_longest_match` stays inside its ranges -/

/-- One inner DP pass keeps the `j2len` value bounds and the best-block
bounds: every chain value counts at most the steps taken so far and at most
the width of the `b`-range up to its index. -/
theorem dpInner_bounds (j2lenOld : Nat → Nat) (i blo bhi alo ahi : Nat)
    (hia : alo ≤ i) (hih : i < ahi)
    (hold : ∀ j, j2lenOld j ≤ i - alo ∧ j2lenOld j ≤ j + 1 - blo) :
    ∀ (js : List Nat) (acc : Nat → Nat) (best : Best),
    (∀ j, acc j ≤ i + 1 - alo ∧ acc j ≤ j + 1 - blo) →
    BoundsOK alo ahi blo bhi best →
    (∀ j, (dpInner j2lenOld i blo bhi js acc best).1 j ≤ i + 1 - alo ∧
          (dpInner j2lenOld i blo bhi js acc best).1 j ≤ j + 1 - blo) ∧
    BoundsOK alo ahi blo bhi (dpInner j2lenOld i blo bhi js acc best).2 := by
  intro js
  induction js with
  | nil => exact fun acc best hacc hbest => ⟨hacc, hbest⟩
  | cons j rest ih =>
    intro acc best hacc hbest
    unfold dpInner
    by_cases hjlo : j < blo
    · rw [if_pos hjlo]
      exact ih acc best hacc hbest
    · rw [if_neg hjlo]
      by_cases hjhi : bhi ≤ j
      · rw [if_pos hjhi]
        exact ⟨hacc, hbest⟩
      · rw [if_neg hjhi]
        have hko : (if j = 0 then 0 else j2lenOld (j - 1)) + 1 ≤ i + 1 - alo := by
          by_cases hj0 : j = 0
          · rw [if_pos hj0]; omega
          · rw [if_neg hj0]
            have := (hold (j - 1)).1
            omega
        have hkb : (if j = 0 then 0 else j2lenOld (j - 1)) + 1 ≤ j + 1 - blo := by
          by_cases hj0 : j = 0
          · rw [if_pos hj0]
            omega
          · rw [if_neg hj0]
            have := (hold (j - 1)).2
            omega
        dsimp only
        generalize hk : (if j = 0 then 0 else j2lenOld (j - 1)) + 1 = k
        rw [hk] at hko hkb
        refine ih _ _ (fun j' => ?_) ?_
        · dsimp only
          by_cases hjj : j' = j
          · subst hjj
            rw [if_pos rfl]
            exact ⟨hko, hkb⟩
          · rw [if_neg hjj]
            exact hacc j'
        · split
          · exact ⟨by dsimp only; omega, by dsimp only; omega,
                   by dsimp only; omega, by dsimp only; omega⟩
          · exact hbest

/-- The outer DP loop over `range' i₀ n` preserves the bounds. -/
theorem dpOuter_bounds (a b : Str) (alo ahi blo bhi : Nat) :
    ∀ (n i₀ : Nat) (j2len : Nat → Nat) (best : Best),
    alo ≤ i₀ → i₀ + n ≤ ahi →
    (∀ j, j2len j ≤ i₀ - alo ∧ j2len j ≤ j + 1 - blo) →
    BoundsOK alo ahi blo bhi best →
    BoundsOK alo ahi blo bhi (dpOuter a b blo bhi (List.range' i₀ n) j2len best) := by
  intro n
  induction n with
  | zero => exact fun i₀ j2len best _ _ _ hbest => hbest
  | succ n ih =>
    intro i₀ j2len best hlo hhi hmap hbest
    rw [List.range'_succ]
    unfold dpOuter
    have hstep := dpInner_bounds j2len i₀ blo bhi alo ahi hlo (by omega)
      hmap (b2jOf b (chAt a i₀)) (fun _ => 0) best
      (fun j => ⟨Nat.zero_le _, Nat.zero_le _⟩) hbest
    exact ih (i₀ + 1) _ _ (by omega) (by omega)
      (fun j => ⟨(hstep.1 j).1, (hstep.1 j).2⟩) hstep.2

theorem extendBackF_bounds (a b : Str) (alo blo ahi bhi : Nat) :
    ∀ (fuel bi bj k : Nat), alo ≤ bi → blo ≤ bj → bi + k ≤ ahi → bj + k ≤ bhi →
    BoundsOK alo ahi blo bhi (extendBackF a b alo blo fuel bi bj k) := by
  intro fuel
  induction fuel with
  | zero => exact fun bi bj k h1 h2 h3 h4 => ⟨h1, h2, h3, h4⟩
  | succ fuel ih =>
    intro bi bj k h1 h2 h3 h4
    unfold extendBackF
    split
    · next hcond => exact ih _ _ _ (by omega) (by omega) (by omega) (by omega)
    · exact ⟨h1, h2, h3, h4⟩

theorem extendFwdF_bounds (a b : Str) (alo blo ahi bhi : Nat) :
    ∀ (fuel bi bj k : Nat), alo ≤ bi → blo ≤ bj → bi + k ≤ ahi → bj + k ≤ bhi →
    BoundsOK alo ahi blo bhi (extendFwdF a b ahi bhi fuel bi bj k) := by
  intro fuel
  induction fuel with
  | zero => exact fun bi bj k h1 h2 h3 h4 => ⟨h1, h2, h3, h4⟩
  | succ fuel ih =>
    intro bi bj k h1 h2 h3 h4
    unfold extendFwdF
    split
    · next hcond => exact ih _ _ _ h1 h2 (by omega) (by omega)
    · exact ⟨h1, h2, h3, h4⟩

/-- `find_longest_match` returns a block inside its ranges. -/
theorem findLongestMatch_bounds (a b : Str) (alo ahi blo bhi : Nat)
    (h1 : alo ≤ ahi) (h2 : blo ≤ bhi) :
    BoundsOK alo ahi blo bhi (findLongestMatch a b alo ahi blo bhi) := by
  unfold findLongestMatch extendBack extendFwd
  have hd : BoundsOK alo ahi blo bhi
      (dpOuter a b blo bhi (List.range' alo (ahi - alo)) (fun _ => 0) (alo, blo, 0)) :=
    dpOuter_bounds a b alo ahi blo bhi (ahi - alo) alo _ _ (le_refl alo) (by omega)
      (fun j => ⟨Nat.zero_le _, Nat.zero_le _⟩)
      ⟨le_refl alo, le_refl blo, by simpa using h1, by simpa using h2⟩
  set d := dpOuter a b blo bhi (List.range' alo (ahi - alo)) (fun _ => 0) (alo, blo, 0) with hdd
  obtain ⟨d1, d2, d3, d4⟩ := hd
  have he := extendBackF_bounds a b alo blo ahi bhi d.1 d.1 d.2.1 d.2.2 d1 d2 d3 d4
  set e := extendBackF a b alo blo d.1 d.1 d.2.1 d.2.2 with hee
  obtain ⟨e1, e2, e3, e4⟩ := he
  exact extendFwdF_bounds a b alo blo ahi bhi (ahi - (e.1 + e.2.2)) e.1 e.2.1 e.2.2 e1 e2 e3 e4

/-- The total size of the matching blocks never exceeds either range width. -/
theorem matchesSumF_le (a b : Str) :
    ∀ (fuel alo ahi blo bhi : Nat), alo ≤ ahi → blo ≤ bhi →
    matchesSumF a b fuel alo ahi blo bhi ≤ min (ahi - alo) (bhi - blo) := by
  intro fuel
  induction fuel with
  | zero => intro alo ahi blo bhi _ _; exact Nat.zero_le _
  | succ fuel ih =>
    intro alo ahi blo bhi h1 h2
    unfold matchesSumF
    obtain ⟨hb1, hb2, hb3, hb4⟩ := findLongestMatch_bounds a b alo ahi blo bhi h1 h2
    dsimp only
    split
    · exact Nat.zero_le _
    · set m := findLongestMatch a b alo ahi blo bhi with hm
      by_cases hL : alo < m.1 ∧ blo < m.2.1
      · rw [if_pos hL]
        have hLle := ih alo m.1 blo m.2.1 (by omega) (by omega)
        by_cases hR : m.1 + m.2.2 < ahi ∧ m.2.1 + m.2.2 < bhi
        · rw [if_pos hR]
          have hRle := ih (m.1 + m.2.2) ahi (m.2.1 + m.2.2) bhi (by omega) (by omega)
          omega
        · rw [if_neg hR]
          omega
      · rw [if_neg hL]
        by_cases hR : m.1 + m.2.2 < ahi ∧ m.2.1 + m.2.2 < bhi
        · rw [if_pos hR]
          have hRle := ih (m.1 + m.2.2) ahi (m.2.1 + m.2.2) bhi (by omega) (by omega)
          omega
        · rw [if_neg hR]
          omega

/-- `matches <= min(len(a), len(b))`. -/
theorem matchesTotal_le (a b : Str) :
    matchesTotal a b ≤ min a.length b.length := by
  have := matchesSumF_le a b (a.length + b.length) 0 a.length 0 b.length
    (Nat.zero_le _) (Nat.zero_le _)
  simpa using this

/-- `ratio() <= 1`. -/
theorem seqMatcherScore_le_one (a b : Str) : seqMatcherScore a b ≤ 1 := by
  unfold seqMatcherScore
  split
  · norm_num
  · next hne =>
    have hpos : (0:ℚ) < (a.length:ℚ) + (b.length:ℚ) := by
      have h0 : 0 < a.length + b.length := Nat.pos_of_ne_zero hne
      exact_mod_cast h0
    rw [div_le_one hpos]
    have hle := matchesTotal_le a b
    have h2 : 2 * matchesTotal a b ≤ a.length + b.length := by omega
    exact_mod_cast h2

/-!
## `ratio()` of a string with itself is `1.0`

When `a = b`, the DP's best block is always diagonal (`besti = bestj`): chain
values at off-diagonal cells never exceed the diagonal run lengths already
recorded, so strict improvement happens only on the diagonal.  The extension
loops then stretch the diagonal block to the whole string.
-/

theorem diagRun_le (a : Str) : ∀ j, diagRun a j ≤ j + 1 := by
  intro j
  induction j with
  | zero =>
    unfold diagRun
    split <;> omega
  | succ j ih =>
    unfold diagRun
    split <;> omega

theorem diagRun_succ (a : Str) (j : Nat) (h : isPopular a (chAt a (j + 1)) = false) :
    diagRun a (j + 1) = diagRun a j + 1 := by
  have he : diagRun a (j + 1)
      = if isPopular a (chAt a (j + 1)) = true then 0 else diagRun a j + 1 := rfl
  rw [he, h]
  simp

theorem diagRun_zero_nonpop (a : Str) (h : isPopular a (chAt a 0) = false) :
    diagRun a 0 = 1 := by
  have he : diagRun a 0
      = if isPopular a (chAt a 0) = true then 0 else 1 := rfl
  rw [he, h]
  simp

theorem diagRun_le_maxDiag (a : Str) : ∀ i j, j < i → diagRun a j ≤ maxDiag a i := by
  intro i
  induction i with
  | zero => intro j hj; omega
  | succ i ih =>
    intro j hj
    unfold maxDiag
    rcases Nat.lt_succ_iff_lt_or_eq.mp hj with h | rfl
    · exact le_trans (ih j h) (le_max_left _ _)
    · exact le_max_right _ _

theorem maxDiag_ge_diagRun (a : Str) (i : Nat) : diagRun a i ≤ maxDiag a (i + 1) := by
  unfold maxDiag
  exact le_max_right _ _

/-- Membership in a `b2j` entry of `a` against itself. -/
theorem mem_b2jOf (a : Str) (c : Char) (j : Nat) (hj : j ∈ b2jOf a c) :
    j < a.length ∧ chAt a j = c ∧ isPopular a c = false := by
  unfold b2jOf at hj
  by_cases hp : isPopular a c
  · rw [if_pos hp] at hj
    exact absurd hj (List.not_mem_nil j)
  · rw [if_neg hp] at hj
    unfold indicesOf at hj
    rw [List.mem_filter, List.mem_range] at hj
    exact ⟨hj.1, by simpa using hj.2, by simpa using hp⟩

theorem self_mem_b2jOf (a : Str) (i : Nat) (hi : i < a.length)
    (hp : isPopular a (chAt a i) = false) : i ∈ b2jOf a (chAt a i) := by
  unfold b2jOf
  rw [if_neg (by simp [hp])]
  unfold indicesOf
  rw [List.mem_filter, List.mem_range]
  exact ⟨hi, by simp⟩

theorem b2jOf_sorted (a : Str) (c : Char) : (b2jOf a c).Pairwise (· < ·) := by
  unfold b2jOf
  split
  · exact List.Pairwise.nil
  · exact List.Pairwise.sublist (List.filter_sublist _) (List.pairwise_lt_range _)

/-- Any chain value produced at step `i` (for an index of `b2j a a[i]`) is at
most `diagRun a i`, and at most `diagRun a j` at cell `j`. -/
theorem step_k_bounds (a : Str) (i j : Nat) (f : Nat → Nat)
    (hInv : StepInv a i f)
    (hjc : chAt a j = chAt a i) (hpopj : isPopular a (chAt a i) = false) :
    (if j = 0 then 0 else f (j - 1)) + 1 ≤ diagRun a i ∧
    (if j = 0 then 0 else f (j - 1)) + 1 ≤ diagRun a j := by
  obtain ⟨h1, h2, _⟩ := hInv
  have hpj : isPopular a (chAt a j) = false := by rw [hjc]; exact hpopj
  constructor
  · by_cases hi0 : i = 0
    · subst hi0
      have : ∀ j', f j' = 0 := fun j' => Nat.le_zero.mp (by simpa using h2 j')
      rw [diagRun_zero_nonpop a hpopj]
      by_cases hj0 : j = 0
      · rw [if_pos hj0]
      · rw [if_neg hj0, this]
    · obtain ⟨i', rfl⟩ : ∃ i', i = i' + 1 := ⟨i - 1, by omega⟩
      rw [diagRun_succ a i' hpopj]
      by_cases hj0 : j = 0
      · rw [if_pos hj0]; omega
      · rw [if_neg hj0]
        have := h2 (j - 1)
        rw [if_neg (by omega)] at this
        simpa using Nat.add_le_add_right (by simpa using this) 1
  · by_cases hj0 : j = 0
    · rw [if_pos hj0, hj0]
      rw [diagRun_zero_nonpop a (hj0 ▸ hpj)]
    · obtain ⟨j', rfl⟩ : ∃ j', j = j' + 1 := ⟨j - 1, by omega⟩
      rw [if_neg (by omega), diagRun_succ a j' hpj]
      simpa using Nat.add_le_add_right (h1 j') 1

theorem diagRun_pop (a : Str) (i : Nat) (h : isPopular a (chAt a i) = true) :
    diagRun a i = 0 := by
  cases i with
  | zero =>
    have he : diagRun a 0 = if isPopular a (chAt a 0) = true then 0 else 1 := rfl
    rw [he, h]
    simp
  | succ j =>
    have he : diagRun a (j + 1)
        = if isPopular a (chAt a (j + 1)) = true then 0 else diagRun a j + 1 := rfl
    rw [he, h]
    simp

/-- Pre-diagonal phase: cells left of the diagonal never improve the best
block (their chains are bounded by earlier diagonal runs). -/
theorem dpInner_prediag (a : Str) (i : Nat) (f : Nat → Nat)
    (hInv : StepInv a i f) (hpop : isPopular a (chAt a i) = false) :
    ∀ (L : List Nat), (∀ j ∈ L, j ∈ b2jOf a (chAt a i) ∧ j < i) →
    ∀ (acc : Nat → Nat) (best : Best),
    (∀ j, acc j ≤ diagRun a j) → (∀ j, acc j ≤ diagRun a i) →
    BestInv a i best →
    (dpInner f i 0 a.length L acc best).2 = best
    ∧ (∀ j, (dpInner f i 0 a.length L acc best).1 j ≤ diagRun a j)
    ∧ (∀ j, (dpInner f i 0 a.length L acc best).1 j ≤ diagRun a i) := by
  intro L
  induction L with
  | nil => exact fun _ acc best h1 h2 _ => ⟨rfl, h1, h2⟩
  | cons j rest ih =>
    intro hL acc best hacc1 hacc2 hbest
    obtain ⟨hjmem, hji⟩ := hL j (List.mem_cons_self _ _)
    obtain ⟨hjn, hjc, _⟩ := mem_b2jOf a _ j hjmem
    obtain ⟨p, q, hbe, hqs, hpq⟩ := hbest
    have hk := step_k_bounds a i j f hInv hjc hpop
    unfold dpInner
    rw [if_neg (Nat.not_lt_zero j), if_neg (by omega)]
    dsimp only
    generalize hkk : (if j = 0 then 0 else f (j - 1)) + 1 = k
    rw [hkk] at hk
    have hnoup : ¬ best.2.2 < k := by
      rw [hbe]
      have hle : k ≤ maxDiag a i := le_trans hk.2 (diagRun_le_maxDiag a i j hji)
      dsimp only
      omega
    rw [if_neg hnoup]
    refine ih (fun j' hj' => hL j' (List.mem_cons_of_mem _ hj')) _ best
      (fun j' => ?_) (fun j' => ?_) ⟨p, q, hbe, hqs, hpq⟩
    · by_cases hjj : j' = j
      · subst hjj
        rw [if_pos rfl]
        exact hk.2
      · rw [if_neg hjj]
        exact hacc1 j'
    · by_cases hjj : j' = j
      · subst hjj
        rw [if_pos rfl]
        exact hk.1
      · rw [if_neg hjj]
        exact hacc2 j'

/-- Post-diagonal phase: cells right of the diagonal never improve the best
block once the diagonal cell of this row has been processed. -/
theorem dpInner_postdiag (a : Str) (i : Nat) (f : Nat → Nat)
    (hInv : StepInv a i f) (hpop : isPopular a (chAt a i) = false) :
    ∀ (R : List Nat), (∀ j ∈ R, j ∈ b2jOf a (chAt a i) ∧ i < j) →
    ∀ (acc : Nat → Nat) (best : Best),
    (∀ j, acc j ≤ diagRun a j) → (∀ j, acc j ≤ diagRun a i) →
    acc i = diagRun a i →
    (∃ p s, best = (p, p, s) ∧ s = maxDiag a (i + 1) ∧ p + s ≤ i + 1) →
    (dpInner f i 0 a.length R acc best).2 = best
    ∧ (∀ j, (dpInner f i 0 a.length R acc best).1 j ≤ diagRun a j)
    ∧ (∀ j, (dpInner f i 0 a.length R acc best).1 j ≤ diagRun a i)
    ∧ (dpInner f i 0 a.length R acc best).1 i = diagRun a i := by
  intro R
  induction R with
  | nil => exact fun _ acc best h1 h2 h3 _ => ⟨rfl, h1, h2, h3⟩
  | cons j rest ih =>
    intro hR acc best hacc1 hacc2 hacci hbest
    obtain ⟨hjmem, hji⟩ := hR j (List.mem_cons_self _ _)
    obtain ⟨hjn, hjc, _⟩ := mem_b2jOf a _ j hjmem
    obtain ⟨p, q, hbe, hqs, hpq⟩ := hbest
    have hk := step_k_bounds a i j f hInv hjc hpop
    unfold dpInner
    rw [if_neg (Nat.not_lt_zero j), if_neg (by omega)]
    dsimp only
    generalize hkk : (if j = 0 then 0 else f (j - 1)) + 1 = k
    rw [hkk] at hk
    have hnoup : ¬ best.2.2 < k := by
      rw [hbe]
      have hle : k ≤ maxDiag a (i + 1) := le_trans hk.1 (maxDiag_ge_diagRun a i)
      dsimp only
      omega
    rw [if_neg hnoup]
    refine ih (fun j' hj' => hR j' (List.mem_cons_of_mem _ hj')) _ best
      (fun j' => ?_) (fun j' => ?_) ?_ ⟨p, q, hbe, hqs, hpq⟩
    · by_cases hjj : j' = j
      · subst hjj
        rw [if_pos rfl]
        exact hk.2
      · rw [if_neg hjj]
        exact hacc1 j'
    · by_cases hjj : j' = j
      · subst hjj
        rw [if_pos rfl]
        exact hk.1
      · rw [if_neg hjj]
        exact hacc2 j'
    · rw [if_neg (by omega : ¬ i = j)]
      exact hacci

/-- One-step unfolding of `dpInner` on a cons cell. -/
theorem dpInner_cons (f : Nat → Nat) (i blo bhi j : Nat) (js : List Nat)
    (acc : Nat → Nat) (best : Best) :
    dpInner f i blo bhi (j :: js) acc best
      = if j < blo then dpInner f i blo bhi js acc best
        else if bhi ≤ j then (acc, best)
        else
          dpInner f i blo bhi js
            (fun j' => if j' = j then (if j = 0 then 0 else f (j - 1)) + 1 else acc j')
            (if best.2.2 < (if j = 0 then 0 else f (j - 1)) + 1 then
              (i + 1 - ((if j = 0 then 0 else f (j - 1)) + 1),
               j + 1 - ((if j = 0 then 0 else f (j - 1)) + 1),
               (if j = 0 then 0 else f (j - 1)) + 1)
             else best) := rfl

/-- `dpInner` processes an append as two successive passes when no index
triggers the `break` (`bhi ≤ j`). -/
theorem dpInner_append (f : Nat → Nat) (i blo bhi : Nat) :
    ∀ (js₁ js₂ : List Nat), (∀ j ∈ js₁, j < bhi) →
    ∀ (acc : Nat → Nat) (best : Best),
    dpInner f i blo bhi (js₁ ++ js₂) acc best
      = dpInner f i blo bhi js₂ (dpInner f i blo bhi js₁ acc best).1
          (dpInner f i blo bhi js₁ acc best).2 := by
  intro js₁
  induction js₁ with
  | nil => exact fun js₂ _ acc best => rfl
  | cons j rest ih =>
    intro js₂ hno acc best
    have hjlt : j < bhi := hno j (List.mem_cons_self _ _)
    rw [List.cons_append, dpInner_cons, dpInner_cons]
    by_cases hjlo : j < blo
    · rw [if_pos hjlo, if_pos hjlo]
      exact ih js₂ (fun j' hj' => hno j' (List.mem_cons_of_mem _ hj')) acc best
    · rw [if_neg hjlo, if_neg hjlo, if_neg (show ¬ bhi ≤ j by omega),
         if_neg (show ¬ bhi ≤ j by omega)]
      exact ih js₂ (fun j' hj' => hno j' (List.mem_cons_of_mem _ hj')) _ _

/-- Processing the diagonal cell and everything right of it: the best block
stays diagonal and reaches `maxDiag a (i+1)`. -/
theorem dpInner_diagstep (a : Str) (i : Nat) (f : Nat → Nat)
    (hin : i < a.length) (hInv : StepInv a i f)
    (hpop : isPopular a (chAt a i) = false)
    (R : List Nat) (hR : ∀ j ∈ R, j ∈ b2jOf a (chAt a i) ∧ i < j)
    (acc1 : Nat → Nat) (p q : Nat)
    (hacc1 : ∀ j, acc1 j ≤ diagRun a j) (hacc2 : ∀ j, acc1 j ≤ diagRun a i)
    (hqs : q = maxDiag a i) (hpq : p + q ≤ i) :
    (∀ j, (dpInner f i 0 a.length (i :: R) acc1 (p, p, q)).1 j ≤ diagRun a j)
    ∧ (∀ j, (dpInner f i 0 a.length (i :: R) acc1 (p, p, q)).1 j ≤ diagRun a i)
    ∧ (dpInner f i 0 a.length (i :: R) acc1 (p, p, q)).1 i = diagRun a i
    ∧ (∃ p' s', (dpInner f i 0 a.length (i :: R) acc1 (p, p, q)).2 = (p', p', s')
        ∧ s' = maxDiag a (i + 1) ∧ p' + s' ≤ i + 1) := by
  have hkdiag : (if i = 0 then 0 else f (i - 1)) + 1 = diagRun a i := by
    cases i with
    | zero =>
      rw [if_pos rfl, diagRun_zero_nonpop a hpop]
    | succ i' =>
      rw [if_neg (Nat.succ_ne_zero i'), diagRun_succ a i' hpop]
      simp only [Nat.add_sub_cancel]
      by_cases hp' : isPopular a (chAt a i') = true
      · have h0 : diagRun a i' = 0 := diagRun_pop a i' hp'
        have hle := hInv.2.1 i'
        rw [if_neg (Nat.succ_ne_zero i')] at hle
        simp only [Nat.add_sub_cancel] at hle
        omega
      · have heq := hInv.2.2 (Nat.succ_ne_zero i') (by simpa using hp')
        simp only [Nat.add_sub_cancel] at heq
        omega
  have hmd : maxDiag a (i + 1) = max (maxDiag a i) (diagRun a i) := rfl
  have hDle := diagRun_le a i
  rw [dpInner_cons, if_neg (Nat.not_lt_zero i), if_neg (show ¬ a.length ≤ i by omega),
     hkdiag]
  have haccnew1 : ∀ j, (fun j' => if j' = i then diagRun a i else acc1 j') j ≤ diagRun a j := by
    intro j
    dsimp only
    by_cases hjj : j = i
    · subst hjj
      rw [if_pos rfl]
    · rw [if_neg hjj]
      exact hacc1 j
  have haccnew2 : ∀ j, (fun j' => if j' = i then diagRun a i else acc1 j') j ≤ diagRun a i := by
    intro j
    dsimp only
    by_cases hjj : j = i
    · subst hjj
      rw [if_pos rfl]
    · rw [if_neg hjj]
      exact hacc2 j
  have haccnewi : (fun j' => if j' = i then diagRun a i else acc1 j') i = diagRun a i := by
    dsimp only
    rw [if_pos rfl]
  by_cases hlt : (p, p, q).2.2 < diagRun a i
  · rw [if_pos hlt]
    have hlt' : q < diagRun a i := hlt
    obtain ⟨hPbest, hPacc1, hPacc2, hPacci⟩ :=
      dpInner_postdiag a i f hInv hpop R hR _ _
        haccnew1 haccnew2 haccnewi
        ⟨i + 1 - diagRun a i, diagRun a i, rfl,
         by rw [hmd]; omega, by omega⟩
    exact ⟨hPacc1, hPacc2, hPacci,
      ⟨i + 1 - diagRun a i, diagRun a i, hPbest, by rw [hmd]; omega, by omega⟩⟩
  · rw [if_neg hlt]
    have hlt' : ¬ q < diagRun a i := hlt
    obtain ⟨hPbest, hPacc1, hPacc2, hPacci⟩ :=
      dpInner_postdiag a i f hInv hpop R hR _ _
        haccnew1 haccnew2 haccnewi
        ⟨p, q, rfl, by rw [hmd]; omega, by omega⟩
    exact ⟨hPacc1, hPacc2, hPacci,
      ⟨p, q, hPbest, by rw [hmd]; omega, by omega⟩⟩

/-- One full self-match DP row preserves the invariants. -/
theorem dpInner_self_step (a : Str) (i : Nat) (hin : i < a.length)
    (f : Nat → Nat) (best : Best)
    (hInv : StepInv a i f) (hbest : BestInv a i best) :
    StepInv a (i + 1)
      (dpInner f i 0 a.length (b2jOf a (chAt a i)) (fun _ => 0) best).1
    ∧ BestInv a (i + 1)
      (dpInner f i 0 a.length (b2jOf a (chAt a i)) (fun _ => 0) best).2 := by
  by_cases hpop : isPopular a (chAt a i) = true
  · have hb2 : b2jOf a (chAt a i) = [] := by
      unfold b2jOf
      rw [if_pos hpop]
    rw [hb2]
    obtain ⟨p, q, hbe, hqs, hpq⟩ := hbest
    refine ⟨⟨fun j => Nat.zero_le _, fun j => ?_, ?_⟩, p, q, hbe, ?_, by omega⟩
    · rw [if_neg (Nat.succ_ne_zero i)]
      simp only [Nat.add_sub_cancel]
      exact Nat.zero_le _
    · intro _ hnp
      simp only [Nat.add_sub_cancel] at hnp
      rw [hnp] at hpop
      exact Bool.noConfusion hpop
    · rw [hqs]
      have hmd : maxDiag a (i + 1) = max (maxDiag a i) (diagRun a i) := rfl
      rw [hmd, diagRun_pop a i hpop]
      omega
  · replace hpop : isPopular a (chAt a i) = false := by simpa using hpop
    obtain ⟨L, R, hsplit⟩ := List.append_of_mem (self_mem_b2jOf a i hin hpop)
    have hsorted := b2jOf_sorted a (chAt a i)
    rw [hsplit] at hsorted
    have hpairL := (List.pairwise_append.mp hsorted).2.2
    have hpairR := List.pairwise_cons.mp (List.pairwise_append.mp hsorted).2.1
    have hLlt : ∀ j ∈ L, j < i := fun j hj =>
      hpairL j hj i (List.mem_cons_self _ _)
    have hRgt : ∀ j ∈ R, i < j := hpairR.1
    have hmemL : ∀ j ∈ L, j ∈ b2jOf a (chAt a i) := fun j hj => by
      rw [hsplit]; exact List.mem_append_left _ hj
    have hmemR : ∀ j ∈ R, j ∈ b2jOf a (chAt a i) := fun j hj => by
      rw [hsplit]; exact List.mem_append_right _ (List.mem_cons_of_mem _ hj)
    have hLbhi : ∀ j ∈ L, j < a.length := fun j hj =>
      (mem_b2jOf a _ j (hmemL j hj)).1
    obtain ⟨p, q, hbe, hqs, hpq⟩ := hbest
    subst hbe
    rw [hsplit, dpInner_append f i 0 a.length L (i :: R) hLbhi]
    obtain ⟨hLbest, hLacc1, hLacc2⟩ :=
      dpInner_prediag a i f hInv hpop L (fun j hj => ⟨hmemL j hj, hLlt j hj⟩)
        (fun _ => 0) (p, p, q) (fun _ => Nat.zero_le _) (fun _ => Nat.zero_le _)
        ⟨p, q, rfl, hqs, hpq⟩
    rw [hLbest]
    obtain ⟨hD1, hD2, hDi, p', s', hPbe, hs', hps'⟩ :=
      dpInner_diagstep a i f hin hInv hpop R (fun j hj => ⟨hmemR j hj, hRgt j hj⟩)
        _ p q hLacc1 hLacc2 hqs hpq
    refine ⟨⟨hD1, fun j => ?_, fun _ _ => hDi⟩, p', s', hPbe, hs', hps'⟩
    rw [if_neg (Nat.succ_ne_zero i)]
    simp only [Nat.add_sub_cancel]
    exact hD2 j

/-! ## Score bounds and loop characterizations -/

theorem seqMatcherScore_nonneg (a b : Str) : 0 ≤ seqMatcherScore a b := by
  unfold seqMatcherScore
  split
  · norm_num
  · apply div_nonneg
    · positivity
    · positivity

theorem wordOverlap_nonneg (A B : Finset Str) : 0 ≤ wordOverlap A B := by
  unfold wordOverlap
  positivity

theorem signatureSimilarity_nonneg (sig1 sig2 : JobSignature) :
    0 ≤ signatureSimilarity sig1 sig2 := by
  unfold signatureSimilarity
  have h1 := seqMatcherScore_nonneg sig1.title sig2.title
  have h2 := seqMatcherScore_nonneg sig1.company sig2.company
  have h3 := seqMatcherScore_nonneg sig1.location sig2.location
  have h4 := wordOverlap_nonneg sig1.title_words sig2.title_words
  have h5 := wordOverlap_nonneg sig1.company_words sig2.company_words
  have c1 : (0:ℚ) ≤ 0.4 := by norm_num
  have c2 : (0:ℚ) ≤ 0.3 := by norm_num
  have c3 : (0:ℚ) ≤ 0.1 := by norm_num
  have c4 : (0:ℚ) ≤ 0.15 := by norm_num
  have c5 : (0:ℚ) ≤ 0.05 := by norm_num
  have := mul_nonneg h1 c1
  have := mul_nonneg h2 c2
  have := mul_nonneg h3 c3
  have := mul_nonneg h4 c4
  have := mul_nonneg h5 c5
  linarith

/-- The fuzzy loop returns `none` iff every tracked signature is either
skipped (same hash) or below the threshold. -/
theorem findFuzzyAux_none_iff (thr : ℚ) (cur : JobSignature) (h : Str)
    (l : List (Str × JobSignature)) :
    findFuzzyAux thr cur h l = none
      ↔ ∀ p ∈ l, p.1 = h ∨ ¬ thr ≤ signatureSimilarity cur p.2 := by
  induction l with
  | nil =>
    constructor
    · intro _ p hp
      exact absurd hp (List.not_mem_nil p)
    · intro _
      rfl
  | cons p rest ih =>
    unfold findFuzzyAux
    by_cases he : p.1 = h
    · rw [if_pos he, ih]
      constructor
      · intro hall q hq
        rcases List.mem_cons.mp hq with rfl | hq'
        · exact Or.inl he
        · exact hall q hq'
      · intro hall q hq
        exact hall q (List.mem_cons_of_mem _ hq)
    · rw [if_neg he]
      by_cases hle : thr ≤ signatureSimilarity cur p.2
      · rw [if_pos hle]
        constructor
        · intro hsome
          exact Option.noConfusion hsome
        · intro hall
          exfalso
          rcases hall p (List.mem_cons_self _ _) with h1 | h2
          · exact he h1
          · exact h2 hle
      · rw [if_neg hle, ih]
        constructor
        · intro hall q hq
          rcases List.mem_cons.mp hq with rfl | hq'
          · exact Or.inr hle
          · exact hall q hq'
        · intro hall q hq
          exact hall q (List.mem_cons_of_mem _ hq)

/-- The content loop, under a threshold in `(0, 1]` and with no skipped keys,
returns `none` iff no tracked content hash matches. -/
theorem findContentAux_none_iff (thr : ℚ) (ch h : Str) (l : List (Str × Str))
    (hpos : 0 < thr) (hle : thr ≤ 1) (hkeys : ∀ p ∈ l, p.1 ≠ h) :
    findContentAux thr ch h l = none ↔ ∀ p ∈ l, p.2 ≠ ch := by
  induction l with
  | nil =>
    constructor
    · intro _ p hp
      exact absurd hp (List.not_mem_nil p)
    · intro _
      rfl
  | cons p rest ih =>
    have hne : p.1 ≠ h := hkeys p (List.mem_cons_self _ _)
    have ih' := ih fun q hq => hkeys q (List.mem_cons_of_mem _ hq)
    unfold findContentAux
    rw [if_neg hne]
    unfold contentSimilarity
    by_cases hch : ch = p.2
    · rw [if_pos hch, if_pos (by norm_num [hle])]
      constructor
      · intro hsome
        exact Option.noConfusion hsome
      · intro hall
        exact absurd hch.symm (hall p (List.mem_cons_self _ _))
    · rw [if_neg hch, if_neg (by simpa using hpos), ih']
      constructor
      · intro hall q hq
        rcases List.mem_cons.mp hq with rfl | hq'
        · exact fun hc => hch hc.symm
        · exact hall q hq'
      · intro hall q hq
        exact hall q (List.mem_cons_of_mem _ hq)

/-- Under a threshold in `(0, 1]` and with no skipped keys, a content match
always reports score `1.0` and pairs the incoming hash with a tracked one. -/
theorem findContentAux_some_spec (thr : ℚ) (ch h : Str) (l : List (Str × Str))
    (hpos : 0 < thr) (hle : thr ≤ 1) (hkeys : ∀ p ∈ l, p.1 ≠ h)
    (m : DuplicateMatch) (hm : findContentAux thr ch h l = some m) :
    m.similarity_score = 1 := by
  induction l generalizing m with
  | nil => exact Option.noConfusion hm
  | cons p rest ih =>
    have hne : p.1 ≠ h := hkeys p (List.mem_cons_self _ _)
    have ih' := fun m hm => ih (fun q hq => hkeys q (List.mem_cons_of_mem _ hq)) m hm
    unfold findContentAux at hm
    rw [if_neg hne] at hm
    unfold contentSimilarity at hm
    by_cases hch : ch = p.2
    · rw [if_pos hch, if_pos (by norm_num [hle])] at hm
      cases hm
      rfl
    · rw [if_neg hch, if_neg (by simpa using hpos)] at hm
      exact ih' m hm

theorem fmt2_one : fmt2 1 = toL "1.00" := by with_unfolding_all decide

set_option maxRecDepth 16000 in
/-- C6, counterexample: with a configured threshold of `2.0`, an incoming
record with a 106-char description that passed the exact and fuzzy checks is
*not* reported as a content match even though a tracked content hash equals
the hash of its normalized description — the binary score `1.0` is still
compared against the threshold (`1.0 >= 2.0` fails), so `add_job` returns
`(False, "unique")` where the claim demands `(True, "content_match_1.00")`. -/
theorem C6_counterexample :
    100 ≤ rContentB.description.length
    ∧ jobHash rContentB ∉ (((Detector.init 2).addJob rContentA).1).exact_matches
    ∧ (((Detector.init 2).addJob rContentA).1).findFuzzyDuplicate rContentB
        (jobHash rContentB) = none
    ∧ (∃ p ∈ (((Detector.init 2).addJob rContentA).1).content_hashes,
        p.2 = contentHash rContentB.description)
    ∧ ((((Detector.init 2).addJob rContentA).1).addJob rContentB).2
        = (false, toL "unique") := by
  with_unfolding_all decide

/-- C6, amended: for a reachable engine whose threshold is at most `1.0`, and
an incoming record with description length ≥ 100 that passed the exact and
fuzzy checks, `add_job` returns `(True, "content_match_1.00")` iff some
tracked content hash equals the hash of the incoming normalized description;
for thresholds above `1.0` content matching never fires (see the
counterexample). -/
theorem C6_content_binary_amended : ∀ (thr : ℚ) (ops : List Op) (r : JobRecord),
    thr ≤ 1 →
    100 ≤ r.description.length →
    jobHash r ∉ (runOps ops (Detector.init thr)).exact_matches →
    (runOps ops (Detector.init thr)).findFuzzyDuplicate r (jobHash r) = none →
    (((runOps ops (Detector.init thr)).addJob r).2 = (true, toL "content_match_1.00")
      ↔ ∃ p ∈ (runOps ops (Detector.init thr)).content_hashes,
          p.2 = contentHash r.description) := by
  intro thr ops r hthr hlen hm hf
  obtain ⟨hkeysEq, hsub⟩ := inv_runOps thr ops
  have hthr_d : (runOps ops (Detector.init thr)).similarity_threshold = thr :=
    runOps_threshold ops _
  have hkeys : ∀ p ∈ (runOps ops (Detector.init thr)).content_hashes,
      p.1 ≠ jobHash r := by
    intro p hp heq
    exact hm (heq ▸ hsub.subset (List.mem_map_of_mem Prod.fst hp))
  have hdesc_ne : ¬(r.description = [] ∨ r.description.length < 100) := by
    push_neg
    exact ⟨fun he => by simp [he] at hlen, by omega⟩
  by_cases hpos : 0 < thr
  · simp only [Detector.addJob, if_neg hm, hf]
    unfold Detector.findContentDuplicate
    rw [if_neg hdesc_ne, hthr_d]
    cases hcn : findContentAux thr (contentHash r.description) (jobHash r)
        (runOps ops (Detector.init thr)).content_hashes with
    | some m =>
      have hscore := findContentAux_some_spec thr _ _ _ hpos hthr hkeys m hcn
      have hmem : ¬ ∀ p ∈ (runOps ops (Detector.init thr)).content_hashes,
          p.2 ≠ contentHash r.description := by
        rw [← findContentAux_none_iff thr _ _ _ hpos hthr hkeys]
        simp [hcn]
      constructor
      · intro _
        push_neg at hmem
        obtain ⟨p, hp, hpe⟩ := hmem
        exact ⟨p, hp, hpe⟩
      · intro _
        simp only [hscore, fmt2_one]
        rfl
    | none =>
      rw [findContentAux_none_iff thr _ _ _ hpos hthr hkeys] at hcn
      constructor
      · intro hcontra
        simp at hcontra
      · rintro ⟨p, hp, hpe⟩
        exact absurd hpe (hcn p hp)
  · push_neg at hpos
    have hsgs : (runOps ops (Detector.init thr)).job_signatures = [] := by
      cases hsgs : (runOps ops (Detector.init thr)).job_signatures with
      | nil => rfl
      | cons p rest =>
        exfalso
        have hp : p ∈ (runOps ops (Detector.init thr)).job_signatures := by
          rw [hsgs]; exact List.mem_cons_self _ _
        have := (findFuzzyAux_none_iff _ _ _ _).1 hf p hp
        rcases this with hph | hns
        · exact hm (hph ▸ hkeysEq ▸ List.mem_map_of_mem Prod.fst hp)
        · refine hns (le_trans ?_ (signatureSimilarity_nonneg _ _))
          rw [hthr_d]
          exact hpos
    have hex : (runOps ops (Detector.init thr)).exact_matches = [] := by
      rw [← hkeysEq, hsgs]
      rfl
    have hch : (runOps ops (Detector.init thr)).content_hashes = [] := by
      have := hsub
      rw [hex] at this
      have hnil := List.sublist_nil.mp this
      cases hcc : (runOps ops (Detector.init thr)).content_hashes with
      | nil => rfl
      | cons q qs => rw [hcc] at hnil; simp at hnil
    simp only [Detector.addJob, if_neg hm, hf]
    unfold Detector.findContentDuplicate
    rw [if_neg hdesc_ne, hch]
    simp [findContentAux_nil]

/-- Witness for C6 (amended) at a concrete reachable engine and record. -/
theorem C6_content_binary_amended_witness :
    ((((runOps [Op.add rContentA] (Detector.init (85/100)))).addJob rContentB).2
        = (true, toL "content_match_1.00")
      ↔ ∃ p ∈ (runOps [Op.add rContentA] (Detector.init (85/100))).content_hashes,
          p.2 = contentHash rContentB.description) :=
  C6_content_binary_amended (85/100) [Op.add rContentA] rContentB
    (by norm_num) (by decide) (by with_unfolding_all decide)
    (by with_unfolding_all decide)

/-- C8, amended: the word-overlap (Jaccard) components of the fuzzy score are
symmetric unconditionally, but the `SequenceMatcher`-based string components
are order-dependent; full symmetry `similarity(A,B) = similarity(B,A)` is
guaranteed when the corresponding title, company and location strings of the
two signatures are equal. -/
theorem C8_symmetry_amended : ∀ (A B : JobSignature),
    wordOverlap A.title_words B.title_words = wordOverlap B.title_words A.title_words
    ∧ wordOverlap A.company_words B.company_words
        = wordOverlap B.company_words A.company_words
    ∧ (A.title = B.title → A.company = B.company → A.location = B.location →
        signatureSimilarity A B = signatureSimilarity B A) := by
  have hsym : ∀ (X Y : Finset Str), wordOverlap X Y = wordOverlap Y X := by
    intro X Y
    unfold wordOverlap
    rw [Finset.inter_comm, Finset.union_comm]
  intro A B
  refine ⟨hsym _ _, hsym _ _, fun h1 h2 h3 => ?_⟩
  unfold signatureSimilarity
  rw [h1, h2, h3, hsym A.title_words B.title_words,
     hsym A.company_words B.company_words]

/-- Witness for C8 (amended): two signatures with equal field strings but
different word sets still score symmetrically. -/
theorem C8_symmetry_amended_witness :
    signatureSimilarity ⟨toL "x", [], [], {toL "p"}, ∅, ∅⟩ ⟨toL "x", [], [], {toL "q"}, ∅, ∅⟩
      = signatureSimilarity ⟨toL "x", [], [], {toL "q"}, ∅, ∅⟩ ⟨toL "x", [], [], {toL "p"}, ∅, ∅⟩ :=
  (C8_symmetry_amended ⟨toL "x", [], [], {toL "p"}, ∅, ∅⟩
    ⟨toL "x", [], [], {toL "q"}, ∅, ∅⟩).2.2 rfl rfl rfl

/-! ## Self-match and empty-string characterizations of the ratio -/

/-- Backward extension of a diagonal block in a self-match runs to the start
of the string. -/
theorem extendBackF_self (a : Str) : ∀ p s, extendBackF a a 0 0 p p p s = (0, 0, s + p) := by
  intro p
  induction p with
  | zero => intro s; rfl
  | succ p ih =>
    intro s
    have he : extendBackF a a 0 0 (p + 1) (p + 1) (p + 1) s
        = if 0 < p + 1 ∧ 0 < p + 1 ∧ chAt a (p + 1 - 1) = chAt a (p + 1 - 1) then
            extendBackF a a 0 0 p (p + 1 - 1) (p + 1 - 1) (s + 1)
          else (p + 1, p + 1, s) := rfl
    rw [he, if_pos ⟨Nat.succ_pos p, Nat.succ_pos p, rfl⟩]
    simp only [Nat.add_sub_cancel]
    rw [ih (s + 1)]
    have hc : s + 1 + p = s + (p + 1) := by omega
    rw [hc]

/-- Forward extension of a diagonal block in a self-match runs to the end of
the string. -/
theorem extendFwdF_self (a : Str) : ∀ c k, k + c = a.length →
    extendFwdF a a a.length a.length c 0 0 k = (0, 0, a.length) := by
  intro c
  induction c with
  | zero =>
    intro k hk
    simp only [Nat.add_zero] at hk
    subst hk
    rfl
  | succ c ih =>
    intro k hk
    have he : extendFwdF a a a.length a.length (c + 1) 0 0 k
        = if 0 + k < a.length ∧ 0 + k < a.length ∧ chAt a (0 + k) = chAt a (0 + k) then
            extendFwdF a a a.length a.length c 0 0 (k + 1)
          else (0, 0, k) := rfl
    rw [he, if_pos ⟨by omega, by omega, rfl⟩]
    exact ih (k + 1) (by omega)

/-- The outer self-match DP loop maintains the diagonal best-block invariant
through to the end of the string. -/
theorem dpOuter_selfInv (a : Str) : ∀ (cnt i : Nat), i + cnt = a.length →
    ∀ f best, StepInv a i f → BestInv a i best →
    BestInv a a.length (dpOuter a a 0 a.length (List.range' i cnt) f best) := by
  intro cnt
  induction cnt with
  | zero =>
    intro i hi f best _ hb
    have hlen : i = a.length := by omega
    subst hlen
    exact hb
  | succ cnt ih =>
    intro i hi f best hf hb
    have hin : i < a.length := by omega
    rw [List.range'_succ]
    obtain ⟨h1, h2⟩ := dpInner_self_step a i hin f best hf hb
    exact ih (i + 1) (by omega) _ _ h1 h2

/-- `find_longest_match` over the whole self-match problem returns the full
diagonal block `(0, 0, len(a))`. -/
theorem findLongestMatch_self (a : Str) :
    findLongestMatch a a 0 a.length 0 a.length = (0, 0, a.length) := by
  obtain ⟨p, s, hd, hs, hps⟩ :=
    dpOuter_selfInv a a.length 0 (by omega) (fun _ => 0) (0, 0, 0)
      ⟨fun j => Nat.zero_le _, fun j => by simp, fun h => absurd rfl h⟩
      ⟨0, 0, rfl, rfl, by omega⟩
  have hd' : dpOuter a a 0 a.length (List.range' 0 (a.length - 0)) (fun _ => 0) (0, 0, 0)
      = (p, p, s) := hd
  have h1 : findLongestMatch a a 0 a.length 0 a.length
      = extendFwd a a a.length a.length
          (extendBack a a 0 0 p p s).1 (extendBack a a 0 0 p p s).2.1
          (extendBack a a 0 0 p p s).2.2 := by
    unfold findLongestMatch
    dsimp only
    rw [hd']
  rw [h1]
  have hb : extendBack a a 0 0 p p s = (0, 0, s + p) := extendBackF_self a p s
  rw [hb]
  show extendFwd a a a.length a.length 0 0 (s + p) = (0, 0, a.length)
  unfold extendFwd
  exact extendFwdF_self a (a.length - (0 + (s + p))) (s + p) (by omega)

/-- One-step unfolding of the matching-blocks sum. -/
theorem matchesSumF_succ (a b : Str) (fuel alo ahi blo bhi : Nat) :
    matchesSumF a b (fuel + 1) alo ahi blo bhi
      = (if (findLongestMatch a b alo ahi blo bhi).2.2 = 0 then 0
         else (findLongestMatch a b alo ahi blo bhi).2.2
           + (if alo < (findLongestMatch a b alo ahi blo bhi).1
                ∧ blo < (findLongestMatch a b alo ahi blo bhi).2.1 then
                matchesSumF a b fuel alo (findLongestMatch a b alo ahi blo bhi).1
                  blo (findLongestMatch a b alo ahi blo bhi).2.1
              else 0)
           + (if (findLongestMatch a b alo ahi blo bhi).1
                  + (findLongestMatch a b alo ahi blo bhi).2.2 < ahi
                ∧ (findLongestMatch a b alo ahi blo bhi).2.1
                  + (findLongestMatch a b alo ahi blo bhi).2.2 < bhi then
                matchesSumF a b fuel
                  ((findLongestMatch a b alo ahi blo bhi).1
                    + (findLongestMatch a b alo ahi blo bhi).2.2) ahi
                  ((findLongestMatch a b alo ahi blo bhi).2.1
                    + (findLongestMatch a b alo ahi blo bhi).2.2) bhi
              else 0)) := rfl

/-- With positive fuel, the self-match matching-blocks sum is the whole
string: the first block is already `(0, 0, len(a))` and no recursion fires. -/
theorem matchesSumF_full (a : Str) (fuel : Nat) :
    matchesSumF a a (fuel + 1) 0 a.length 0 a.length = a.length := by
  rw [matchesSumF_succ, findLongestMatch_self]
  dsimp only
  by_cases h0 : a.length = 0
  · rw [if_pos h0]
    omega
  · have hn1 : ¬((0:Nat) < 0 ∧ (0:Nat) < 0) := by omega
    have hn2 : ¬(0 + a.length < a.length ∧ 0 + a.length < a.length) := by omega
    rw [if_neg h0, if_neg hn1, if_neg hn2]
    omega

/-- `sum of matching blocks` of a string against itself is its length. -/
theorem matchesTotal_self (a : Str) : matchesTotal a a = a.length := by
  have h0 : matchesTotal a a
      = matchesSumF a a (a.length + a.length) 0 a.length 0 a.length := rfl
  rw [h0]
  rcases hn : a.length with _ | m
  · rfl
  · rw [show m + 1 + (m + 1) = (m + (m + 1)) + 1 from by omega, ← hn]
    exact matchesSumF_full a (m + a.length)

/-- `ratio(s, s) = 1.0` for every string, including the empty one. -/
theorem seqMatcherScore_self (a : Str) : seqMatcherScore a a = 1 := by
  unfold seqMatcherScore
  by_cases h0 : a.length + a.length = 0
  · rw [if_pos h0]
  · rw [if_neg h0, matchesTotal_self]
    have hlen : a.length ≠ 0 := by omega
    have hpos : (0:ℚ) < (a.length : ℚ) := by
      exact_mod_cast Nat.pos_of_ne_zero hlen
    have h2 : ((a.length : ℚ) + (a.length : ℚ)) ≠ 0 := by linarith
    rw [div_eq_iff h2]
    ring

/-- An empty second string has empty `b2j` rows. -/
theorem b2jOf_nil (c : Char) : b2jOf [] c = [] := rfl

/-- The DP loop over an empty second string never moves the best block. -/
theorem dpOuter_empty_b (a : Str) : ∀ (l : List Nat) (f : Nat → Nat) (best : Best),
    dpOuter a [] 0 0 l f best = best := by
  intro l
  induction l with
  | nil => intro f best; rfl
  | cons i is ih =>
    intro f best
    have he : dpOuter a [] 0 0 (i :: is) f best
        = dpOuter a [] 0 0 is
            (dpInner f i 0 0 (b2jOf [] (chAt a i)) (fun _ => 0) best).1
            (dpInner f i 0 0 (b2jOf [] (chAt a i)) (fun _ => 0) best).2 := rfl
    rw [he, b2jOf_nil]
    exact ih _ _

/-- `find_longest_match` against an empty second string returns a zero-size
block. -/
theorem findLongestMatch_empty_b (a : Str) (n : Nat) :
    findLongestMatch a [] 0 n 0 0 = (0, 0, 0) := by
  have hd : findLongestMatch a [] 0 n 0 0 = extendFwd a [] n 0 0 0 0 := by
    unfold findLongestMatch
    dsimp only
    rw [dpOuter_empty_b a (List.range' 0 (n - 0)) (fun _ => 0) (0, 0, 0)]
    rfl
  rw [hd]
  unfold extendFwd
  cases n with
  | zero => rfl
  | succ m =>
    show extendFwdF a [] (m + 1) 0 (m + 1) 0 0 0 = (0, 0, 0)
    have he : extendFwdF a [] (m + 1) 0 (m + 1) 0 0 0
        = if 0 + 0 < m + 1 ∧ 0 + 0 < 0 ∧ chAt a (0 + 0) = chAt [] (0 + 0) then
            extendFwdF a [] (m + 1) 0 m 0 0 (0 + 1)
          else (0, 0, 0) := rfl
    rw [he, if_neg (fun hc => Nat.not_lt_zero _ hc.2.1)]

theorem matchesSumF_empty_b (a : Str) (fuel ahi : Nat) :
    matchesSumF a [] (fuel + 1) 0 ahi 0 0 = 0 := by
  rw [matchesSumF_succ, findLongestMatch_empty_b]
  dsimp only
  rw [if_pos rfl]

theorem matchesTotal_empty_b (a : Str) : matchesTotal a [] = 0 := by
  have h0 : matchesTotal a [] = matchesSumF a [] (a.length + 0) 0 a.length 0 0 := rfl
  rw [h0]
  rcases hn : a.length with _ | m
  · rfl
  · exact matchesSumF_empty_b a m (m + 1)

/-- `find_longest_match` with an empty first string returns a zero-size
block. -/
theorem findLongestMatch_empty_a (b : Str) (bhi : Nat) :
    findLongestMatch [] b 0 0 0 bhi = (0, 0, 0) := rfl

theorem matchesSumF_empty_a (b : Str) (fuel bhi : Nat) :
    matchesSumF [] b (fuel + 1) 0 0 0 bhi = 0 := by
  rw [matchesSumF_succ, findLongestMatch_empty_a]
  dsimp only
  rw [if_pos rfl]

theorem matchesTotal_empty_a (b : Str) : matchesTotal [] b = 0 := by
  have h0 : matchesTotal [] b = matchesSumF [] b (0 + b.length) 0 0 0 b.length := rfl
  rw [h0]
  rcases hn : b.length with _ | m
  · rfl
  · exact matchesSumF_empty_a b m (m + 1)

/-- `ratio(s, '')` is 1 when `s` is empty (both-empty convention) and 0
otherwise. -/
theorem seqMatcherScore_empty_right (a : Str) :
    seqMatcherScore a [] = if a = [] then 1 else 0 := by
  by_cases ha : a = []
  · subst ha
    rw [if_pos rfl]
    rfl
  · rw [if_neg ha]
    unfold seqMatcherScore
    have hlen : a.length ≠ 0 := fun h => ha (List.length_eq_zero.mp h)
    rw [if_neg (by simpa using hlen), matchesTotal_empty_b]
    simp

/-- `ratio('', s)` is 1 when `s` is empty and 0 otherwise. -/
theorem seqMatcherScore_empty_left (b : Str) :
    seqMatcherScore [] b = if b = [] then 1 else 0 := by
  by_cases hb : b = []
  · subst hb
    rw [if_pos rfl]
    rfl
  · rw [if_neg hb]
    unfold seqMatcherScore
    have hlen : b.length ≠ 0 := fun h => hb (List.length_eq_zero.mp h)
    rw [if_neg (by simpa using hlen), matchesTotal_empty_a]
    simp

theorem wordOverlap_le_one (A B : Finset Str) : wordOverlap A B ≤ 1 := by
  unfold wordOverlap
  have hpos : (0:ℚ) < max ((A ∪ B).card : ℚ) 1 :=
    lt_of_lt_of_le zero_lt_one (le_max_right _ _)
  rw [div_le_one hpos]
  refine le_trans ?_ (le_max_left _ _)
  exact_mod_cast Finset.card_le_card Finset.inter_subset_union

theorem signatureSimilarity_le_one (sig1 sig2 : JobSignature) :
    signatureSimilarity sig1 sig2 ≤ 1 := by
  unfold signatureSimilarity
  have h1 := seqMatcherScore_le_one sig1.title sig2.title
  have h2 := seqMatcherScore_le_one sig1.company sig2.company
  have h3 := seqMatcherScore_le_one sig1.location sig2.location
  have h4 := wordOverlap_le_one sig1.title_words sig2.title_words
  have h5 := wordOverlap_le_one sig1.company_words sig2.company_words
  have g1 := seqMatcherScore_nonneg sig1.title sig2.title
  have g2 := seqMatcherScore_nonneg sig1.company sig2.company
  have g3 := seqMatcherScore_nonneg sig1.location sig2.location
  have g4 := wordOverlap_nonneg sig1.title_words sig2.title_words
  have g5 := wordOverlap_nonneg sig1.company_words sig2.company_words
  linarith

/-- C2: `_calculate_signature_similarity` is the weighted sum
0.4·title-ratio + 0.3·company-ratio + 0.1·location-ratio +
0.15·title-word-overlap + 0.05·company-word-overlap; the SequenceMatcher
ratio is 1.0 on two identical strings (including two empty ones), 0 when
exactly one side is empty, and always lies in [0,1]; the word overlap
divides by `max(len(A | B), 1)` and is 0 when both sets are empty; the
total similarity lies in [0,1]; and a pair is a fuzzy duplicate exactly
when the similarity reaches the threshold. -/
theorem C2_fuzzy_similarity :
    (∀ sig1 sig2 : JobSignature, signatureSimilarity sig1 sig2
        = 0.4 * seqMatcherScore sig1.title sig2.title
          + 0.3 * seqMatcherScore sig1.company sig2.company
          + 0.1 * seqMatcherScore sig1.location sig2.location
          + 0.15 * wordOverlap sig1.title_words sig2.title_words
          + 0.05 * wordOverlap sig1.company_words sig2.company_words)
    ∧ (∀ s : Str, seqMatcherScore s s = 1)
    ∧ (∀ s : Str, seqMatcherScore s [] = if s = [] then 1 else 0)
    ∧ (∀ s : Str, seqMatcherScore [] s = if s = [] then 1 else 0)
    ∧ (∀ a b : Str, 0 ≤ seqMatcherScore a b ∧ seqMatcherScore a b ≤ 1)
    ∧ (∀ A B : Finset Str, wordOverlap A B
        = ((A ∩ B).card : ℚ) / (max ((A ∪ B).card : ℚ) 1))
    ∧ wordOverlap ∅ ∅ = 0
    ∧ (∀ sig1 sig2 : JobSignature,
        0 ≤ signatureSimilarity sig1 sig2 ∧ signatureSimilarity sig1 sig2 ≤ 1)
    ∧ (∀ (sig1 sig2 : JobSignature) (thr : ℚ),
        isFuzzyDup sig1 sig2 thr = true ↔ thr ≤ signatureSimilarity sig1 sig2) := by
  refine ⟨fun sig1 sig2 => ?_, seqMatcherScore_self, seqMatcherScore_empty_right,
    seqMatcherScore_empty_left,
    fun a b => ⟨seqMatcherScore_nonneg a b, seqMatcherScore_le_one a b⟩,
    fun A B => rfl, ?_,
    fun sig1 sig2 => ⟨signatureSimilarity_nonneg sig1 sig2,
      signatureSimilarity_le_one sig1 sig2⟩,
    fun sig1 sig2 thr => ?_⟩
  · unfold signatureSimilarity
    dsimp only
    ring
  · unfold wordOverlap
    simp
  · unfold isFuzzyDup
    exact ⟨of_decide_eq_true, decide_eq_true⟩

end JobSeek
